import Mathlib

/-!
# Verification of the file-based sort-and-search core of `dbms.c`

This file is a shallow embedding of the external sort-and-search engine of
the Global Electronics Retailer database system (`src/dbms.c`,
`src/structures.h`): the disk-resident doubly linked list, the two external
sorting algorithms built on it (bubble sort and iterative bottom-up merge
sort), the flattener, and the binary-search primitives.

Modelling conventions, shared by everything below:

* A *record* is an opaque fixed-size byte block; it is modelled as a value
  of an arbitrary type `α`.  A *Record Store* (a flat file of records) is a
  `List α` in file order.
* A comparator is `cmp : α → α → Int`, matching the C signature
  `int (*)(const void*, const void*)` (negative / zero / positive).
* A *Disk Linked List file* is modelled as an association list from byte
  offsets (`Int`, since C `long` offsets use the sentinel `-1`) to nodes.
  Node headers carry `prevOffset`, `nextOffset` and `dataSize` exactly as
  `struct DoublyLinkedNodeHeader` does; `sizeof` constants are taken from
  `structures.h`: the metadata block is 32 bytes and a node header is
  24 bytes (two `long`s plus a `size_t`), so the node created for record
  `i` lives at byte offset `32 + i * (24 + recordSize)`, exactly as in
  `CreateLinkedListFromFile`.
* C functions that can fail (on I/O) return `Option` values; `none` models
  the C error result (`0` for the `int` success flags, `-1` for the `long`
  record counts).  Whenever a loop in C can fail to terminate on inputs
  that violate its callers' invariants, the model returns `none` on exactly
  those inputs and the accompanying comment says so.
-/

namespace Dbms

/-- The ordering relation induced by a three-way comparator: `a` precedes
`b` when `cmp a b <= 0`.  "Non-decreasing under `cmp`" means `Pairwise`
for this relation. -/
def cmpLe (cmp : α → α → Int) (a b : α) : Prop := cmp a b ≤ 0

/-- Comparator contract, part 1 (spec §6: comparators are "total and
consistent"): the comparison of `a` with `b` is the mirror image of the
comparison of `b` with `a`. -/
def CmpAntisym (cmp : α → α → Int) : Prop := ∀ a b, cmp a b ≤ 0 ↔ 0 ≤ cmp b a

/-- Comparator contract, part 2: transitivity of `cmp _ _ ≤ 0`. -/
def CmpTrans (cmp : α → α → Int) : Prop :=
  ∀ a b c, cmp a b ≤ 0 → cmp b c ≤ 0 → cmp a c ≤ 0

/-- Mirror of `struct DoublyLinkedNodeHeader` (structures.h): file offsets
of the previous and next node (`-1` is the "none" sentinel) and the payload
size. -/
structure DoublyLinkedNodeHeader where
  prevOffset : Int
  nextOffset : Int
  dataSize : Nat
deriving Repr, DecidableEq

/-- One (header, payload) node pair as stored in the linked list file. -/
structure DiskNode (α : Type) where
  header : DoublyLinkedNodeHeader
  payload : α
deriving Repr, DecidableEq

/-- The linked list file: an association list from byte offsets to the
nodes stored there.  (The metadata block at offset 0 is kept separately in
`LinkedListFileMetadata`.) -/
abbrev ListFile (α : Type) := List (Int × DiskNode α)

/-- Mirror of `struct LinkedListFileMetadata` (structures.h), stored at
offset 0 of the linked list file. -/
structure LinkedListFileMetadata where
  headOffset : Int
  tailOffset : Int
  nodeCount : Nat
  recordSize : Nat
deriving Repr, DecidableEq

/-- Look up the node stored at a given byte offset (models a successful
`fseek` + `fread` of the header and payload at that offset; `none` models
a read that fails because no node was ever written there). -/
def lookupNode : ListFile α → Int → Option (DiskNode α)
  | [], _ => none
  | (o, nd) :: rest, off => if o = off then some nd else lookupNode rest off

/-- Overwrite only the payload bytes of the node at `off` (an `fwrite` of
`recordSize` bytes at `off + sizeof(DoublyLinkedNodeHeader)`), leaving the
header and every other node untouched. -/
def updatePayload : ListFile α → Int → α → ListFile α
  | [], _, _ => []
  | (o, nd) :: rest, off, d =>
    if o = off then (o, ⟨nd.header, d⟩) :: updatePayload rest off d
    else (o, nd) :: updatePayload rest off d

/-- Overwrite only the header of the node at `off` (an `fwrite` of
`sizeof(DoublyLinkedNodeHeader)` bytes at `off`), leaving the payload and
every other node untouched. -/
def updateHeader : ListFile α → Int → DoublyLinkedNodeHeader → ListFile α
  | [], _, _ => []
  | (o, nd) :: rest, off, h =>
    if o = off then (o, ⟨h, nd.payload⟩) :: updateHeader rest off h
    else (o, nd) :: updateHeader rest off h

/-- Byte offset of the node created for record `i`:
`sizeof(LinkedListFileMetadata) = 32` bytes of metadata followed by `i`
nodes of `24 + recordSize` bytes each (`sizeof(DoublyLinkedNodeHeader) =
24`), exactly the offsets `CreateLinkedListFromFile` produces with its
running `ftell`. -/
def nodeOffset (s i : Nat) : Int := ((32 + i * (24 + s) : Nat) : Int)

/-- The `nextOffset` the build loop leaves in the node at position `i`:
`-1` while the node is written (it is the provisional tail), patched to the
next node's offset by the single backward `fwrite` at
`previousOffset + sizeof(long)` as soon as a further record (`t ≠ []`)
is consumed. -/
def builtNext (s i : Nat) : List α → Int
  | [] => -1
  | _ :: _ => nodeOffset s (i + 1)

/-- The `prevOffset` the build loop writes into the node at position `i`:
the previously written node's offset, or `-1` for the head. -/
def builtPrev (s : Nat) (i : Nat) : Int :=
  if i = 0 then -1 else nodeOffset s (i - 1)

/-- The sequence of nodes written by the record-reading loop of
`CreateLinkedListFromFile`, for the remaining records `v` when `i` records
have already been consumed; `dataSize = recordSize` for every node. -/
def buildNodes (s : Nat) : List α → Nat → ListFile α
  | [], _ => []
  | a :: t, i =>
    (nodeOffset s i, ⟨⟨builtPrev s i, builtNext s i t, s⟩, a⟩) :: buildNodes s t (i + 1)

/-- Model of `CreateLinkedListFromFile` (dbms.c:267): stream the records of
the input Record Store, append one node per record, and finally write the
metadata block with the head/tail offsets and the node count.  Returns the
file contents, the metadata, and the `long` result (`nodesCreated`, which
equals the record count since the model has no I/O failures). -/
def CreateLinkedListFromFile (s : Nat) (R : List α) :
    ListFile α × LinkedListFileMetadata × Int :=
  (buildNodes s R 0,
   ⟨if R.length = 0 then -1 else nodeOffset s 0,
    if R.length = 0 then -1 else nodeOffset s (R.length - 1),
    R.length, s⟩,
   (R.length : Int))

/-- The traversal loop of `ConvertLinkedListToFile` (dbms.c:566): follow
`nextOffset` from `cur`, writing each payload, while `cur != -1` and fewer
than `maxNodes` nodes have been processed (the loop counts nodes, it does
not run "until none").  A failed node read (`ReadNodeFromList` returning 0)
aborts with the error result, modelled by `none`; reaching `-1` early just
stops, mirroring the C warning that is not treated as fatal. -/
def flattenLoop (f : ListFile α) : Int → Nat → Option (List α)
  | _, 0 => some []
  | cur, maxNodes + 1 =>
    if cur = -1 then some []
    else
      match lookupNode f cur with
      | none => none
      | some nd => Option.map (nd.payload :: ·) (flattenLoop f nd.header.nextOffset maxNodes)

/-- Model of `ConvertLinkedListToFile` (dbms.c:517): read the metadata,
then drain the list from `headOffset` for at most `nodeCount` nodes,
producing the output Record Store in list order.  `none` models the `-1`
error return (a node read failed); `some out` models success with
`recordsWritten = out.length`. -/
def ConvertLinkedListToFile (f : ListFile α) (md : LinkedListFileMetadata) :
    Option (List α) :=
  flattenLoop f md.headOffset md.nodeCount

/-- The header stored at a given offset; two files with the same
`headerAt` everywhere have identical topology (all `prevOffset` /
`nextOffset` links). -/
def headerAt (f : ListFile α) (off : Int) : Option DoublyLinkedNodeHeader :=
  (lookupNode f off).map DiskNode.header

/-- Model of `ReadNodeFromList` (dbms.c:390).  Arguments mirror the C
parameters: the `FILE*` (`none` = `NULL`), the node offset, whether a
data buffer was supplied (`dataBuffer != NULL`), and whether a header
pointer was supplied (`nodeHeader != NULL`).  The result is the data
delivered through the out-parameters (`none` = the C failure result `0`)
together with the number of `fseek`/`fread` calls performed.  The guard
`listFile != NULL && nodeOffset >= 0 && nodeHeader != NULL` fails without
touching the file; a header-only read (`dataBuffer == NULL`) is valid and
skips the payload. -/
def ReadNodeFromList (file : Option (ListFile α)) (off : Int)
    (wantData headerPtr : Bool) : Option (DoublyLinkedNodeHeader × Option α) × Nat :=
  match file, headerPtr with
  | some f, true =>
    if 0 ≤ off then
      match lookupNode f off with
      | some nd =>
        if wantData then (some (nd.header, some nd.payload), 3)
        else (some (nd.header, none), 2)
      | none => (none, 2)
    else (none, 0)
  | _, _ => (none, 0)

/-- Model of `WriteNodeToList` (dbms.c:425): the `FILE*`, the offset, the
optional data buffer and the optional header pointer.  Returns the C
success flag, the file after the write, and the number of `fseek`/`fwrite`
calls performed.  A header-only write (`dataBuffer == NULL`) updates only
the header, leaving the payload bytes untouched.  Writing to an offset
holding no node extends the file (C `fwrite` past the written area); with
no data buffer the payload bytes there are unspecified in C, modelled by
`default`. -/
def WriteNodeToList [Inhabited α] (file : Option (ListFile α)) (off : Int)
    (data : Option α) (hdr : Option DoublyLinkedNodeHeader) :
    Bool × Option (ListFile α) × Nat :=
  match file, hdr with
  | some f, some h =>
    if 0 ≤ off then
      match lookupNode f off, data with
      | some _, some d => (true, some (updatePayload (updateHeader f off h) off d), 3)
      | some _, none => (true, some (updateHeader f off h), 2)
      | none, some d => (true, some ((off, ⟨h, d⟩) :: f), 3)
      | none, none => (true, some ((off, ⟨h, default⟩) :: f), 2)
    else (false, some f, 0)
  | f, _ => (false, f, 0)

/-- Model of `SwapAdjacentNodesInList` (dbms.c:461): read both nodes, then
write node 2's payload at node 1's offset and vice versa, re-writing each
node's own (unchanged) header — the `prev`/`next` links are left exactly
as they were.  `none` models the failure result `0`. -/
def SwapAdjacentNodesInList [Inhabited α] (f : ListFile α) (off1 off2 : Int) :
    Option (ListFile α) :=
  match (ReadNodeFromList (some f) off1 true true).1 with
  | none => none
  | some (h1, d1) =>
    match (ReadNodeFromList (some f) off2 true true).1 with
    | none => none
    | some (h2, d2) =>
      match d1, d2 with
      | some d1, some d2 =>
        let w1 := WriteNodeToList (some f) off1 (some d2) (some h1)
        match w1.1, w1.2.1 with
        | true, some f1 =>
          let w2 := WriteNodeToList (some f1) off2 (some d1) (some h2)
          match w2.1, w2.2.1 with
          | true, some f2 => some f2
          | _, _ => none
        | _, _ => none
      | _, _ => none

/-- The inner pass of `SortBubble` (dbms.c:4213): starting at `cur`, do
`k` iterations; in each, read the current node (header and payload) and —
if it has a successor — the successor, compare the payloads, and when
`compareFunction(data1, data2) > 0` swap **only the payload bytes** at the
two offsets (two `fwrite`s at `offset + sizeof(DoublyLinkedNodeHeader)`),
then advance to the successor.  When the current node has no successor the
iteration does nothing (the C loop body is skipped and `currentOffset`
stays put).  The `Bool` accumulates `swapOccurred`; `none` models an I/O
failure (a read of a non-existent node). -/
def bubbleInner (cmp : α → α → Int) : ListFile α → Int → Nat → Bool →
    Option (ListFile α × Bool)
  | f, _, 0, sw => some (f, sw)
  | f, cur, k + 1, sw =>
    match lookupNode f cur with
    | none => none
    | some nd1 =>
      if nd1.header.nextOffset = -1 then bubbleInner cmp f cur k sw
      else
        match lookupNode f nd1.header.nextOffset with
        | none => none
        | some nd2 =>
          if 0 < cmp nd1.payload nd2.payload then
            bubbleInner cmp
              (updatePayload (updatePayload f cur nd2.payload)
                nd1.header.nextOffset nd1.payload)
              nd1.header.nextOffset k true
          else bubbleInner cmp f nd1.header.nextOffset k sw

/-- The outer pass loop of `SortBubble` (dbms.c:4201): for
`outerIndex = 0 .. nodeCount-2`, run an inner pass of
`nodeCount - outerIndex - 1` steps from the head; stop early as soon as a
full pass performs no swap (`sortComplete`).  The loop is indexed here by
`left = nodeCount - 1 - outerIndex`, the number of passes still allowed,
which is also exactly the step count of the current inner pass; the loop
guard `outerIndex < nodeCount - 1` is `left > 0`. -/
def bubbleLoop (cmp : α → α → Int) (head : Int) : Nat → ListFile α →
    Option (ListFile α)
  | 0, f => some f
  | left + 1, f =>
    match bubbleInner cmp f head (left + 1) false with
    | none => none
    | some (f2, sw) =>
      if sw then bubbleLoop cmp head left f2 else some f2

/-- The payload sequence seen along a built chain during a bubble inner
pass, mirrored at the list level: `passL v k sw` performs the same `k`
compare/swap steps on the record sequence `v` (starting at its head) that
`bubbleInner` performs on the corresponding file, carrying the
`swapOccurred` flag.  A singleton or empty remainder is left unchanged
(the node has no successor). -/
def passL (cmp : α → α → Int) : List α → Nat → Bool → List α × Bool
  | v, 0, sw => (v, sw)
  | [], _ + 1, sw => ([], sw)
  | [a], _ + 1, sw => ([a], sw)
  | a :: b :: t, k + 1, sw =>
    if 0 < cmp a b then
      let r := passL cmp (a :: t) k true
      (b :: r.1, r.2)
    else
      let r := passL cmp (b :: t) k sw
      (a :: r.1, r.2)

/-- The outer loop of `SortBubble`, mirrored at the list level (same
countdown indexing as `bubbleLoop`). -/
def bubbleLoopL (cmp : α → α → Int) : Nat → List α → List α
  | 0, v => v
  | left + 1, v =>
    let r := passL cmp v (left + 1) false
    if r.2 then bubbleLoopL cmp left r.1 else r.1

/-- Specification-level two-pointer merge, written from the spec's own
words ("repeatedly take the smaller (ties favor A, i.e. `≤` to A) by
comparator"); used to state what the bounded merge of the source computes. -/
def mergeBySpec (cmp : α → α → Int) : List α → List α → List α
  | [], ys => ys
  | xs, [] => xs
  | a :: xs, b :: ys =>
    if cmp a b ≤ 0 then a :: mergeBySpec cmp xs (b :: ys)
    else b :: mergeBySpec cmp (a :: xs) ys
termination_by xs ys => xs.length + ys.length

/-- Model of `MergeTwoSortedListsWithLimit` (dbms.c:621), at the level of
the payload chains: each side is given as the suffix of the node chain
starting at its head offset (`[]` means the head offset is the `-1`
sentinel) together with its count limit (`left1Count`/`left2Count`); all
relink writes are header-only, so the merged run is fully described by the
sequence of payloads appended.  The branch structure mirrors the C loop,
which runs while `count1 < left1Count || count2 < left2Count`:
take from side 2 when side 1 has reached its limit or has no cached node
(`data1Valid == 0`, i.e. the chain ran out), symmetrically for side 1,
and otherwise compare, ties to side 1; a take from an exhausted chain
appends nothing but still counts.  The two `none` cases model arguments on
which the C loop never terminates (side 1 simultaneously under its limit
and out of chain, with side 2 already at its limit: `count1` never
advances, so the loop condition stays true forever); they are unreachable
from `MergeSortLinkedListIterative`, whose limits are counted node
walks. -/
def MergeTwoSortedListsWithLimit (cmp : α → α → Int) :
    List α → Nat → List α → Nat → Option (List α)
  | _, 0, _, 0 => some []
  | xs, 0, y :: ys2, Nat.succ m =>
    Option.map (y :: ·) (MergeTwoSortedListsWithLimit cmp xs 0 ys2 m)
  | xs, 0, [], Nat.succ m => MergeTwoSortedListsWithLimit cmp xs 0 [] m
  | [], Nat.succ m1, y :: ys2, Nat.succ m2 =>
    Option.map (y :: ·) (MergeTwoSortedListsWithLimit cmp [] (Nat.succ m1) ys2 m2)
  | [], Nat.succ m1, [], Nat.succ m2 =>
    MergeTwoSortedListsWithLimit cmp [] (Nat.succ m1) [] m2
  | [], Nat.succ _, _ :: _, 0 => none
  | [], Nat.succ _, [], 0 => none
  | a :: xs2, Nat.succ m1, ys, 0 =>
    Option.map (a :: ·) (MergeTwoSortedListsWithLimit cmp xs2 m1 ys 0)
  | a :: xs2, Nat.succ m1, [], Nat.succ m2 =>
    Option.map (a :: ·) (MergeTwoSortedListsWithLimit cmp xs2 m1 [] (Nat.succ m2))
  | a :: xs2, Nat.succ m1, b :: ys2, Nat.succ m2 =>
    if cmp a b ≤ 0 then
      Option.map (a :: ·) (MergeTwoSortedListsWithLimit cmp xs2 m1 (b :: ys2) (Nat.succ m2))
    else
      Option.map (b :: ·) (MergeTwoSortedListsWithLimit cmp (a :: xs2) (Nat.succ m1) ys2 m2)
termination_by xs n1 ys n2 => n1 + n2

/-- One round of the bottom-up merge sort (the inner `while (currentPos
!= -1)` loop of `MergeSortLinkedListIterative`, dbms.c:1051): walk the
chain; the next `sublistSize` nodes are sublist A (`left1Count` counted by
walking, stopping at the chain end); if there is no second sublist the
remaining run is appended unmerged (and still counts as one merge, since
its head becomes `mergedHead`); otherwise count sublist B the same way,
merge both with the count-bounded merge, append the merged run, and
continue at `nextPairStart`.  Returns the new chain and `numMerges`.
`sublistSize = 0` would make `nextPairStart = currentPos` and loop
forever, hence `none`; it is unreachable (`sublistSize` starts at 1 and
doubles). -/
def mergeRound (cmp : α → α → Int) (s : Nat) : List α → Option (List α × Nat)
  | [] => some ([], 0)
  | x :: c2 =>
    if hs : s = 0 then none
    else
      match hr : List.drop s (x :: c2) with
      | [] => some (x :: c2, 1)
      | y :: rest2 =>
        match MergeTwoSortedListsWithLimit cmp (List.take s (x :: c2))
            (List.take s (x :: c2)).length
            (List.take s (y :: rest2)) (List.take s (y :: rest2)).length with
        | none => none
        | some m =>
          match mergeRound cmp s (List.drop s (y :: rest2)) with
          | none => none
          | some (r, k) => some (m ++ r, k + 1)
termination_by c => c.length
decreasing_by
  have hlen := congrArg List.length hr
  simp only [List.length_drop, List.length_cons] at hlen ⊢
  omega

/-- The doubling loop of `MergeSortLinkedListIterative` (dbms.c:1041):
while `sublistSize < nodeCount && iteration < maxIterations (= 64)`, run
one round; a round that fails or performs zero merges aborts with failure;
otherwise double `sublistSize` and continue.  After the loop, `iteration
>= 64` is treated as a fatal error even if the sort had finished.  Returns
the C success/failure outcome together with the final iteration count. -/
def mergeSortLoop (cmp : α → α → Int) (n : Nat) (c : List α) (s it : Nat) :
    Option (List α) × Nat :=
  if h : s < n ∧ it < 64 then
    match mergeRound cmp s c with
    | none => (none, it + 1)
    | some (c2, m) =>
      if m = 0 then (none, it + 1)
      else mergeSortLoop cmp n c2 (2 * s) (it + 1)
  else (if 64 ≤ it then none else some c, it)
termination_by 64 - it
decreasing_by omega

/-- Model of `MergeSortLinkedListIterative` (dbms.c:991) on the payload
chain (every write it performs is header-only, so the payloads never move
and the chain order carries the whole state): `nodeCount <= 1` returns the
input unchanged with success; otherwise run the doubling loop from
`sublistSize = 1`, `iteration = 0`. -/
def MergeSortLinkedListIterative (cmp : α → α → Int) (c : List α) (n : Nat) :
    Option (List α) :=
  if n ≤ 1 then some c
  else (mergeSortLoop cmp n c 1 0).1

/-- Model of `SortMerge` (dbms.c:4017): build the linked list
(`nodesCreated = R.length`; `<= 0` is an error returning `-1`), for one
record convert straight back (which by the round-trip is `R` itself),
otherwise merge-sort the chain and convert it back, failing when the sort
fails, when its head is the `-1` sentinel, or when no records get
written — on the sorted chain those last two both mean "empty chain". -/
def SortMerge (cmp : α → α → Int) (R : List α) : Option (List α) :=
  if R.length = 0 then none
  else if R.length = 1 then some R
  else
    match MergeSortLinkedListIterative cmp R R.length with
    | none => none
    | some c => if c.length = 0 then none else some c

/-- Sorted-blocks invariant of the bottom-up merge sort: every aligned
block of `s` consecutive payloads is non-decreasing under `cmp`. -/
def BlocksSorted (cmp : α → α → Int) (s : Nat) (c : List α) : Prop :=
  ∀ k : Nat, List.Pairwise (cmpLe cmp) ((c.drop (k * s)).take s)

/-- Model of `SortBubble` (dbms.c:4132): build the linked list from the
Record Store; `nodesCreated <= 0` (an empty store) is treated as an error
and returns `-1` (`none`); a single record is converted straight back;
otherwise run the bubble passes on the list file and convert the (still
metadata-unchanged) list back to a Record Store, failing if the conversion
fails or writes no records. -/
def SortBubble (cmp : α → α → Int) (s : Nat) (R : List α) : Option (List α) :=
  let built := CreateLinkedListFromFile s R
  if R.length = 0 then none
  else if R.length = 1 then ConvertLinkedListToFile built.1 built.2.1
  else
    match bubbleLoop cmp built.2.1.headOffset (built.2.1.nodeCount - 1) built.1 with
    | none => none
    | some f2 =>
      match ConvertLinkedListToFile f2 built.2.1 with
      | none => none
      | some out => if out.length = 0 then none else some out

/-! ## The binary search layer (dbms.c:3759 `SearchBinary`,
dbms.c:3879 `SearchBinaryRange`)

The sorted file is modelled as a `List (Option α)`: position `i` holds
`some a` when `fread` at offset `i * recordSize` delivers the record `a`,
and `none` when that read fails.  `readStore` models one
`fseek`/`fread` probe.  The loops carry explicit fuel and are structurally
recursive on it; each driver passes fuel at least the number of loop
iterations the C code can execute, which the lemmas show is enough for the
fuel case never to cut a run short. -/

def readStore (store : List (Option α)) (i : Int) : Option α :=
  if i < 0 then none else store.getD i.toNat none

/-- The `while` loop of `SearchBinary` (dbms.c:3819–3848).  Returns
`(returnValue, resultPosition, comparisons)`: `1` with the found
position, `0`/`-1` with position `-1`, plus a count of how many times
`compareFunction` was called.  A failing `fread` at the probe sets
`errorOccurred` and falls out of the loop with `-1`. -/
def searchLoop (cmp : α → α → Int) (key : α) (store : List (Option α)) :
    Nat → Int → Int → Int × Int × Nat
  | 0, _, _ => (0, -1, 0)
  | fuel + 1, leftBound, rightBound =>
    if leftBound ≤ rightBound then
      let middlePosition := leftBound + (rightBound - leftBound) / 2
      match readStore store middlePosition with
      | none => (-1, -1, 0)
      | some currentRecord =>
        if cmp key currentRecord = 0 then (1, middlePosition, 1)
        else if cmp key currentRecord < 0 then
          let r := searchLoop cmp key store fuel leftBound (middlePosition - 1)
          (r.1, r.2.1, r.2.2 + 1)
        else
          let r := searchLoop cmp key store fuel (middlePosition + 1) rightBound
          (r.1, r.2.1, r.2.2 + 1)
    else (0, -1, 0)

/-- Model of `SearchBinary` (dbms.c:3759): an empty file returns
`(0, -1)` before any probe; otherwise binary search over positions
`0 .. totalRecords - 1`. -/
def SearchBinary (cmp : α → α → Int) (key : α) (store : List (Option α)) :
    Int × Int × Nat :=
  if store.length = 0 then (0, -1, 0)
  else searchLoop cmp key store store.length 0 ((store.length : Int) - 1)

/-- The left-expansion loop of `SearchBinaryRange` (dbms.c:3940–3955):
walk `checkPosition` down from `firstMatch - 1`, extending `rangeStart`
while the probe reads back a record comparing equal to the key; a failing
read only clears `continueSearchLeft`, it does not set `errorOccurred`. -/
def expandLeft (cmp : α → α → Int) (key : α) (store : List (Option α)) :
    Nat → Int → Int → Int
  | 0, _, rangeStart => rangeStart
  | fuel + 1, checkPosition, rangeStart =>
    if 0 ≤ checkPosition then
      match readStore store checkPosition with
      | none => rangeStart
      | some currentRecord =>
        if cmp key currentRecord = 0 then
          expandLeft cmp key store fuel (checkPosition - 1) checkPosition
        else rangeStart
    else rangeStart

/-- The right-expansion loop of `SearchBinaryRange` (dbms.c:3963–3978),
symmetric to `expandLeft`, bounded above by `totalRecords`. -/
def expandRight (cmp : α → α → Int) (key : α) (store : List (Option α)) :
    Nat → Int → Int → Int
  | 0, _, rangeEnd => rangeEnd
  | fuel + 1, checkPosition, rangeEnd =>
    if checkPosition < (store.length : Int) then
      match readStore store checkPosition with
      | none => rangeEnd
      | some currentRecord =>
        if cmp key currentRecord = 0 then
          expandRight cmp key store fuel (checkPosition + 1) checkPosition
        else rangeEnd
    else rangeEnd

/-- Model of `SearchBinaryRange` (dbms.c:3879): returns
`(returnValue, startPosition, endPosition)`.  When the inner
`SearchBinary` does not return `1`, its result (`0` or `-1`) is passed
through with both positions `-1`; otherwise the match at `firstMatch` is
expanded left and right and the function returns
`rangeEnd - rangeStart + 1` matches. -/
def SearchBinaryRange (cmp : α → α → Int) (key : α) (store : List (Option α)) :
    Int × Int × Int :=
  let r := SearchBinary cmp key store
  if r.1 = 1 then
    let rangeStart := expandLeft cmp key store store.length (r.2.1 - 1) r.2.1
    let rangeEnd := expandRight cmp key store store.length (r.2.1 + 1) r.2.1
    (rangeEnd - rangeStart + 1, rangeStart, rangeEnd)
  else (r.1, -1, -1)

end Dbms

namespace Dbms

/-! ## Offset arithmetic and lookup lemmas for built files -/

theorem nodeOffset_nonneg (s i : Nat) : 0 ≤ nodeOffset s i := by
  simp only [nodeOffset]
  positivity

theorem nodeOffset_ne_neg_one (s i : Nat) : nodeOffset s i ≠ -1 := by
  intro h
  have := nodeOffset_nonneg s i
  omega

theorem nodeOffset_inj {s i j : Nat} (h : nodeOffset s i = nodeOffset s j) : i = j := by
  simp only [nodeOffset, Nat.cast_inj] at h
  have hpos : 0 < 24 + s := by omega
  exact Nat.eq_of_mul_eq_mul_right hpos (by omega : i * (24 + s) = j * (24 + s))

/-- Looking up the node of the record at position `|p|` of the record list
`p ++ a :: t` (built starting from consumed-count `k`): it holds payload
`a`, its `prevOffset` points at the previous node (or `-1` at the head),
and its `nextOffset` points at the following node (or `-1` at the tail). -/
theorem lookupNode_buildNodes (s : Nat) (p : List α) (a : α) (t : List α) :
    ∀ k, lookupNode (buildNodes s (p ++ a :: t) k) (nodeOffset s (k + p.length)) =
      some ⟨⟨builtPrev s (k + p.length), builtNext s (k + p.length) t, s⟩, a⟩ := by
  induction p with
  | nil =>
    intro k
    simp [buildNodes, lookupNode]
  | cons b p ih =>
    intro k
    have hne : nodeOffset s k ≠ nodeOffset s (k + (b :: p).length) := by
      intro h
      have := nodeOffset_inj h
      simp at this
    rw [List.cons_append]
    show lookupNode ((nodeOffset s k, _) :: buildNodes s (p ++ a :: t) (k + 1)) _ = _
    rw [lookupNode, if_neg hne]
    have := ih (k + 1)
    rw [List.length_cons, show k + (p.length + 1) = (k + 1) + p.length by omega]
    exact this

/-- Payload updates commute with builds on positions not yet reached:
overwriting at an offset strictly before the build start leaves the built
nodes untouched. -/
theorem updatePayload_buildNodes_lt (s : Nat) (d : α) (v : List α) :
    ∀ m k : Nat, k < m →
      updatePayload (buildNodes s v m) (nodeOffset s k) d = buildNodes s v m := by
  induction v with
  | nil => intro m k _; simp [buildNodes, updatePayload]
  | cons x v ihv =>
    intro m k hm
    have hne : nodeOffset s m ≠ nodeOffset s k := by
      intro h; have := nodeOffset_inj h; omega
    rw [buildNodes, updatePayload, if_neg hne, ihv (m + 1) k (by omega)]

/-- Payload updates commute with `buildNodes`: overwriting the payload at
the offset of position `|p|` replaces that record and nothing else, because
the node headers depend only on positions and on which tails are empty. -/
theorem updatePayload_buildNodes (s : Nat) (d : α) (p : List α) (a : α) (t : List α) :
    ∀ k, updatePayload (buildNodes s (p ++ a :: t) k) (nodeOffset s (k + p.length)) d =
      buildNodes s (p ++ d :: t) k := by
  induction p with
  | nil =>
    intro k
    rw [List.nil_append, List.nil_append, buildNodes, buildNodes, updatePayload]
    simp only [List.length_nil, Nat.add_zero, eq_self_iff_true, if_true]
    rw [updatePayload_buildNodes_lt s d t (k + 1) k (by omega)]
  | cons b p ih =>
    intro k
    have hne : nodeOffset s k ≠ nodeOffset s (k + (b :: p).length) := by
      intro h
      have := nodeOffset_inj h
      simp at this
    rw [List.cons_append, List.cons_append, buildNodes, buildNodes, updatePayload,
      if_neg hne]
    have hnx : builtNext s k (p ++ a :: t) = builtNext s k (p ++ d :: t) := by
      cases p <;> rfl
    rw [hnx, List.length_cons, show k + (p.length + 1) = (k + 1) + p.length by omega,
      ih (k + 1)]

/-- Flattening a built chain from the node at position `|p|` with fuel
`|v|` recovers exactly the suffix `v` of the records. -/
theorem flattenLoop_buildNodes (s : Nat) (v : List α) :
    ∀ p : List α, v ≠ [] →
      flattenLoop (buildNodes s (p ++ v) 0) (nodeOffset s p.length) v.length = some v := by
  induction v with
  | nil => intro p h; exact absurd rfl h
  | cons a t ih =>
    intro p _
    rw [List.length_cons, flattenLoop, if_neg (nodeOffset_ne_neg_one s p.length)]
    have hl := lookupNode_buildNodes s p a t 0
    simp only [Nat.zero_add] at hl
    rw [hl]
    cases t with
    | nil => simp [flattenLoop, builtNext]
    | cons c u =>
      have := ih (p ++ [a]) (by simp)
      simp only [List.append_assoc, List.singleton_append, List.length_append,
        List.length_cons, List.length_nil] at this
      show Option.map _ (flattenLoop _ (builtNext s p.length (c :: u)) (c :: u).length) = _
      rw [builtNext, List.length_cons]
      rw [show p.length + 0 + 1 = p.length + 1 by omega] at this
      rw [this]
      rfl

/-- Claim C2 core: the Build / Flatten round-trip is the identity on any
Record Store, including the empty and singleton stores. -/
theorem roundTrip (s : Nat) (R : List α) :
    ConvertLinkedListToFile (CreateLinkedListFromFile s R).1
      (CreateLinkedListFromFile s R).2.1 = some R := by
  cases R with
  | nil => simp [ConvertLinkedListToFile, CreateLinkedListFromFile, flattenLoop]
  | cons a t =>
    simp only [ConvertLinkedListToFile, CreateLinkedListFromFile, List.length_cons,
      if_neg (by omega : ¬(t.length + 1 = 0))]
    have := flattenLoop_buildNodes s (a :: t) [] (by simp)
    simpa using this

/-! ### Frame lemmas for the point write primitives -/

theorem lookupNode_updateHeader (off : Int) (h : DoublyLinkedNodeHeader) (o : Int) :
    ∀ f : ListFile α, lookupNode (updateHeader f off h) o =
      if o = off then (lookupNode f off).map (fun nd => ⟨h, nd.payload⟩)
      else lookupNode f o := by
  intro f
  induction f with
  | nil => by_cases ho : o = off <;> simp [updateHeader, lookupNode, ho]
  | cons e rest ih =>
    obtain ⟨ko, nd⟩ := e
    rw [updateHeader]
    by_cases h1 : ko = off <;> by_cases h2 : o = off
    · have h3 : ko = o := by omega
      simp [lookupNode, h1, h2, h3]
    · have h3 : ¬ ko = o := by omega
      have h4 : ¬ off = o := by omega
      simp [lookupNode, h1, h2, h3, h4, ih]
    · subst h2
      simp [lookupNode, h1, ih]
    · by_cases h3 : ko = o
      · simp [lookupNode, h1, h2, h3]
      · simp [lookupNode, h1, h2, h3, ih]

theorem lookupNode_updatePayload (off : Int) (d : α) (o : Int) :
    ∀ f : ListFile α, lookupNode (updatePayload f off d) o =
      if o = off then (lookupNode f off).map (fun nd => ⟨nd.header, d⟩)
      else lookupNode f o := by
  intro f
  induction f with
  | nil => by_cases ho : o = off <;> simp [updatePayload, lookupNode, ho]
  | cons e rest ih =>
    obtain ⟨ko, nd⟩ := e
    rw [updatePayload]
    by_cases h1 : ko = off <;> by_cases h2 : o = off
    · have h3 : ko = o := by omega
      simp [lookupNode, h1, h2, h3]
    · have h3 : ¬ ko = o := by omega
      have h4 : ¬ off = o := by omega
      simp [lookupNode, h1, h2, h3, h4, ih]
    · subst h2
      simp [lookupNode, h1, ih]
    · by_cases h3 : ko = o
      · simp [lookupNode, h1, h2, h3]
      · simp [lookupNode, h1, h2, h3, ih]

/-- Payload-only writes never change any header. -/
theorem headerAt_updatePayload (f : ListFile α) (off : Int) (d : α) (o : Int) :
    headerAt (updatePayload f off d) o = headerAt f o := by
  rw [headerAt, headerAt, lookupNode_updatePayload]
  by_cases ho : o = off
  · rw [if_pos ho, ho]
    cases lookupNode f off <;> rfl
  · rw [if_neg ho]

/-- Re-writing a header value the node already holds changes no header
anywhere. -/
theorem headerAt_updateHeader_of_eq (f : ListFile α) (off : Int)
    (h : DoublyLinkedNodeHeader) (hh : headerAt f off = some h) (o : Int) :
    headerAt (updateHeader f off h) o = headerAt f o := by
  rw [headerAt, headerAt, lookupNode_updateHeader]
  by_cases ho : o = off
  · subst ho
    rw [if_pos rfl]
    rw [headerAt] at hh
    cases hl : lookupNode f o with
    | none => rw [hl] at hh; cases hh
    | some nd =>
      rw [hl] at hh
      simp only [Option.map_some'] at hh ⊢
      rw [Option.some.injEq] at hh ⊢
      exact hh.symm
  · rw [if_neg ho]

/-- The bubble inner pass touches only payload bytes: every header is left
exactly as it was. -/
theorem headerAt_bubbleInner (cmp : α → α → Int) :
    ∀ (k : Nat) (f : ListFile α) (cur : Int) (sw : Bool) (f2 : ListFile α) (sw2 : Bool),
      bubbleInner cmp f cur k sw = some (f2, sw2) →
      ∀ o, headerAt f2 o = headerAt f o := by
  intro k
  induction k with
  | zero =>
    intro f cur sw f2 sw2 hrun o
    rw [bubbleInner] at hrun
    cases hrun
    rfl
  | succ m ih =>
    intro f cur sw f2 sw2 hrun o
    rw [bubbleInner] at hrun
    cases h1 : lookupNode f cur with
    | none => simp only [h1] at hrun; exact Option.noConfusion hrun
    | some nd1 =>
      simp only [h1] at hrun
      by_cases hnx : nd1.header.nextOffset = -1
      · rw [if_pos hnx] at hrun
        exact ih f cur sw f2 sw2 hrun o
      · rw [if_neg hnx] at hrun
        cases h2 : lookupNode f nd1.header.nextOffset with
        | none => simp only [h2] at hrun; exact Option.noConfusion hrun
        | some nd2 =>
          simp only [h2] at hrun
          by_cases hc : 0 < cmp nd1.payload nd2.payload
          · rw [if_pos hc] at hrun
            have := ih _ _ _ _ _ hrun o
            rw [this, headerAt_updatePayload, headerAt_updatePayload]
          · rw [if_neg hc] at hrun
            exact ih f nd1.header.nextOffset sw f2 sw2 hrun o

/-- The whole bubble pass loop preserves every header, hence the entire
list topology. -/
theorem headerAt_bubbleLoop (cmp : α → α → Int) (head : Int) :
    ∀ (left : Nat) (f : ListFile α) (f2 : ListFile α),
      bubbleLoop cmp head left f = some f2 →
      ∀ o, headerAt f2 o = headerAt f o := by
  intro left
  induction left with
  | zero =>
    intro f f2 hrun o
    rw [bubbleLoop] at hrun
    cases hrun
    rfl
  | succ m ih =>
    intro f f2 hrun o
    rw [bubbleLoop] at hrun
    cases hinner : bubbleInner cmp f head (m + 1) false with
    | none => simp only [hinner] at hrun; exact Option.noConfusion hrun
    | some p =>
      simp only [hinner] at hrun
      obtain ⟨f3, sw⟩ := p
      cases sw with
      | false =>
        simp only [Bool.false_eq_true, if_false] at hrun
        cases hrun
        exact headerAt_bubbleInner cmp _ f head false _ _ hinner o
      | true =>
        simp only [if_true] at hrun
        have hrest := ih f3 f2 hrun o
        rw [hrest]
        exact headerAt_bubbleInner cmp _ f head false _ _ hinner o

/-- `SwapAdjacentNodesInList` preserves every header: both writes re-write
the header value that was just read, and otherwise touch only payloads. -/
theorem headerAt_swapAdjacent [Inhabited α] (f : ListFile α) (off1 off2 : Int)
    (f2 : ListFile α) (hrun : SwapAdjacentNodesInList f off1 off2 = some f2) :
    ∀ o, headerAt f2 o = headerAt f o := by
  intro o
  rw [SwapAdjacentNodesInList] at hrun
  by_cases h1 : 0 ≤ off1
  case neg =>
    simp only [ReadNodeFromList, if_neg h1] at hrun
    exact Option.noConfusion hrun
  cases hn1 : lookupNode f off1 with
  | none =>
    simp only [ReadNodeFromList, if_pos h1, hn1] at hrun
    exact Option.noConfusion hrun
  | some nd1 =>
    by_cases h2 : 0 ≤ off2
    case neg =>
      simp only [ReadNodeFromList, if_pos h1, if_neg h2, hn1, if_true] at hrun
      exact Option.noConfusion hrun
    cases hn2 : lookupNode f off2 with
    | none =>
      simp only [ReadNodeFromList, if_pos h1, if_pos h2, hn1, hn2, if_true] at hrun
      exact Option.noConfusion hrun
    | some nd2 =>
      have hn1b : lookupNode (updatePayload (updateHeader f off1 nd1.header) off1
          nd2.payload) off2 =
          some (if off2 = off1 then ⟨nd1.header, nd2.payload⟩ else nd2) := by
        rw [lookupNode_updatePayload]
        by_cases ho : off2 = off1
        · rw [if_pos ho, if_pos ho, lookupNode_updateHeader, if_pos rfl, hn1]
          rfl
        · rw [if_neg ho, if_neg ho, lookupNode_updateHeader, if_neg ho, hn2]
      simp only [ReadNodeFromList, WriteNodeToList, if_pos h1, if_pos h2, hn1, hn2,
        hn1b, if_true] at hrun
      rw [Option.some.injEq] at hrun
      subst hrun
      have hq1 : headerAt f off1 = some nd1.header := by
        rw [headerAt, hn1]; rfl
      have hq2 : headerAt (updatePayload (updateHeader f off1 nd1.header) off1
          nd2.payload) off2 = some nd2.header := by
        rw [headerAt, hn1b]
        by_cases ho : off2 = off1
        · have : nd1 = nd2 := by
            rw [ho] at hn2
            exact Option.some_inj.mp (hn1.symm.trans hn2)
          simp [ho, this]
        · simp [ho]
      rw [headerAt_updatePayload, headerAt_updateHeader_of_eq _ _ _ hq2,
        headerAt_updatePayload, headerAt_updateHeader_of_eq _ _ _ hq1]

/-! ### The bounded two-pointer merge -/

theorem mergeBySpec_nil_right (cmp : α → α → Int) :
    ∀ l : List α, mergeBySpec cmp l [] = l := by
  intro l
  cases l <;> simp [mergeBySpec]

theorem mergeBySpec_perm (cmp : α → α → Int) :
    ∀ (xs ys : List α), (mergeBySpec cmp xs ys).Perm (xs ++ ys) := by
  intro xs
  induction xs with
  | nil => intro ys; simp [mergeBySpec]
  | cons a xs ihx =>
    intro ys
    induction ys with
    | nil => simp [mergeBySpec]
    | cons b ys ihy =>
      rw [mergeBySpec]
      by_cases h : cmp a b ≤ 0
      · rw [if_pos h]
        exact List.Perm.cons a (ihx (b :: ys))
      · rw [if_neg h]
        exact (List.Perm.cons b ihy).trans List.perm_middle.symm

theorem mergeBySpec_sorted (cmp : α → α → Int)
    (htot : ∀ a b, cmp a b ≤ 0 ∨ cmp b a ≤ 0) (htr : CmpTrans cmp) :
    ∀ (xs ys : List α), xs.Pairwise (cmpLe cmp) → ys.Pairwise (cmpLe cmp) →
      (mergeBySpec cmp xs ys).Pairwise (cmpLe cmp) := by
  intro xs
  induction xs with
  | nil => intro ys hxs hys; simpa [mergeBySpec] using hys
  | cons a xs ihx =>
    intro ys
    induction ys with
    | nil => intro hxs hys; simpa [mergeBySpec] using hxs
    | cons b ys ihy =>
      intro hxs hys
      rw [mergeBySpec]
      obtain ⟨ha, hxs2⟩ := List.pairwise_cons.mp hxs
      obtain ⟨hb, hys2⟩ := List.pairwise_cons.mp hys
      by_cases h : cmp a b ≤ 0
      · rw [if_pos h]
        refine List.pairwise_cons.mpr ⟨?_, ihx (b :: ys) hxs2 hys⟩
        intro z hz
        have hz2 := (mergeBySpec_perm cmp xs (b :: ys)).mem_iff.mp hz
        rcases List.mem_append.mp hz2 with hzx | hzy
        · exact ha z hzx
        · rcases List.mem_cons.mp hzy with rfl | hzy2
          · exact h
          · exact htr a b z h (hb z hzy2)
      · rw [if_neg h]
        have hba : cmp b a ≤ 0 := (htot a b).resolve_left h
        refine List.pairwise_cons.mpr ⟨?_, ihy hxs hys2⟩
        intro z hz
        have hz2 := (mergeBySpec_perm cmp (a :: xs) ys).mem_iff.mp hz
        rcases List.mem_append.mp hz2 with hzx | hzy
        · rcases List.mem_cons.mp hzx with rfl | hzx2
          · exact hba
          · exact htr b a z hba (ha z hzx2)
        · exact hb z hzy

/-- Core of claim C7: with limits no larger than the available chains
(which is how the merge-sort round always calls it, since the limits are
counted node walks), the bounded merge consumes exactly the first
`left1Count`/`left2Count` nodes of the two sides — stopping at the limit,
not at a chain tail — and interleaves them by comparator with ties to
side A. -/
theorem mergeLimit_eq_spec (cmp : α → α → Int) :
    ∀ (N : Nat) (xs : List α) (n1 : Nat) (ys : List α) (n2 : Nat), n1 + n2 ≤ N →
      n1 ≤ xs.length → n2 ≤ ys.length →
      MergeTwoSortedListsWithLimit cmp xs n1 ys n2 =
        some (mergeBySpec cmp (xs.take n1) (ys.take n2)) := by
  intro N
  induction N with
  | zero =>
    intro xs n1 ys n2 hN h1 h2
    have hn1 : n1 = 0 := by omega
    have hn2 : n2 = 0 := by omega
    subst hn1; subst hn2
    simp [MergeTwoSortedListsWithLimit, mergeBySpec]
  | succ M ih =>
    intro xs n1 ys n2 hN h1 h2
    cases n1 with
    | zero =>
      cases n2 with
      | zero => simp [MergeTwoSortedListsWithLimit, mergeBySpec]
      | succ m =>
        cases ys with
        | nil => simp at h2
        | cons y ys2 =>
          rw [MergeTwoSortedListsWithLimit,
            ih xs 0 ys2 m (by omega) (by omega) (by simpa using h2)]
          simp [mergeBySpec]
    | succ m1 =>
      cases xs with
      | nil => simp at h1
      | cons a xs2 =>
        cases n2 with
        | zero =>
          rw [MergeTwoSortedListsWithLimit,
            ih xs2 m1 ys 0 (by omega) (by simpa using h1) (by omega)]
          simp [mergeBySpec, mergeBySpec_nil_right]
        | succ m2 =>
          cases ys with
          | nil => simp at h2
          | cons b ys2 =>
            rw [MergeTwoSortedListsWithLimit]
            by_cases h : cmp a b ≤ 0
            · rw [if_pos h,
                ih xs2 m1 (b :: ys2) (Nat.succ m2) (by omega) (by simpa using h1) h2]
              simp [mergeBySpec, h]
            · rw [if_neg h,
                ih (a :: xs2) (Nat.succ m1) ys2 m2 (by omega) h1 (by simpa using h2)]
              simp [mergeBySpec, h]

/-! ### Rounds and the doubling loop of the iterative merge sort -/

theorem cmpTotal_of_antisym {cmp : α → α → Int} (hAs : CmpAntisym cmp) :
    ∀ a b, cmp a b ≤ 0 ∨ cmp b a ≤ 0 := by
  intro a b
  rcases Int.le_total (cmp a b) 0 with h | h
  · exact Or.inl h
  · exact Or.inr ((hAs b a).mpr h)

theorem drop_append_length (l1 l2 : List α) (j : Nat) :
    (l1 ++ l2).drop (l1.length + j) = l2.drop j := by
  induction l1 with
  | nil => simp
  | cons a l1 ih => simpa [Nat.succ_add] using ih

theorem take_append_length (l1 l2 : List α) : (l1 ++ l2).take l1.length = l1 := by
  induction l1 with
  | nil => simp
  | cons a l1 ih => simpa using ih

theorem blocksSorted_nil (cmp : α → α → Int) (s : Nat) :
    BlocksSorted cmp s ([] : List α) := by
  intro k
  simp [BlocksSorted]

theorem blocksSorted_one (cmp : α → α → Int) (c : List α) : BlocksSorted cmp 1 c := by
  intro k
  cases hd : c.drop (k * 1) with
  | nil => simp
  | cons a t => simp [List.take_cons]

/-- Unfolding `mergeRound` on a chain that fits in a single sublist. -/
theorem mergeRound_cons_small (cmp : α → α → Int) (s : Nat) (hs : ¬ s = 0)
    (x : α) (c2 : List α) (hr : List.drop s (x :: c2) = []) :
    mergeRound cmp s (x :: c2) = some (x :: c2, 1) := by
  rw [mergeRound, dif_neg hs]
  split
  · rfl
  · rename_i y2 rest3 heq
    rw [hr] at heq
    cases heq

/-- Unfolding `mergeRound` when a second sublist exists: merge the two
counted sublists (which always succeeds since the limits are the walked
lengths) and recurse past the pair. -/
theorem mergeRound_cons_eq (cmp : α → α → Int) (s : Nat) (hs : ¬ s = 0)
    (x y : α) (c2 rest2 : List α) (hr : List.drop s (x :: c2) = y :: rest2) :
    mergeRound cmp s (x :: c2) =
      match mergeRound cmp s (List.drop s (y :: rest2)) with
      | none => none
      | some (r, k) =>
        some (mergeBySpec cmp (List.take s (x :: c2)) (List.take s (y :: rest2)) ++ r,
          k + 1) := by
  rw [mergeRound, dif_neg hs]
  have hm : MergeTwoSortedListsWithLimit cmp (List.take s (x :: c2))
      (List.take s (x :: c2)).length (List.take s (y :: rest2))
      (List.take s (y :: rest2)).length =
      some (mergeBySpec cmp (List.take s (x :: c2)) (List.take s (y :: rest2))) := by
    rw [mergeLimit_eq_spec cmp
      ((List.take s (x :: c2)).length + (List.take s (y :: rest2)).length) _ _ _ _
      (Nat.le_refl _) (Nat.le_refl _) (Nat.le_refl _)]
    rw [List.take_length, List.take_length]
  split
  · rename_i heq
    rw [hr] at heq
    cases heq
  · rename_i y2 rest3 heq
    rw [hr] at heq
    cases heq
    rw [hm]

/-- One merge round: it succeeds, permutes the chain, performs at least
one merge on a nonempty chain, and upgrades the sorted-blocks invariant
from `s` to `2 * s`. -/
theorem mergeRound_spec (cmp : α → α → Int)
    (htot : ∀ a b, cmp a b ≤ 0 ∨ cmp b a ≤ 0) (htr : CmpTrans cmp)
    (s : Nat) (hs : 1 ≤ s) :
    ∀ (L : Nat) (c : List α), c.length ≤ L → BlocksSorted cmp s c →
      ∃ c2 k, mergeRound cmp s c = some (c2, k) ∧ c2.Perm c ∧
        (c ≠ [] → 1 ≤ k) ∧ BlocksSorted cmp (2 * s) c2 := by
  intro L
  induction L with
  | zero =>
    intro c hlen _
    have hc : c = [] := List.eq_nil_of_length_eq_zero (by omega)
    subst hc
    exact ⟨[], 0, by rw [mergeRound], List.Perm.refl _,
      fun h => absurd rfl h, blocksSorted_nil cmp _⟩
  | succ L ih =>
    intro c hlen hBS
    cases c with
    | nil =>
      exact ⟨[], 0, by rw [mergeRound], List.Perm.refl _,
        fun h => absurd rfl h, blocksSorted_nil cmp _⟩
    | cons x c2 =>
      have hs0 : ¬ s = 0 := by omega
      cases hr : List.drop s (x :: c2) with
      | nil =>
        rw [mergeRound_cons_small cmp s hs0 x c2 hr]
        have hle : (x :: c2).length ≤ s := by
          have := congrArg List.length hr
          simp only [List.length_drop, List.length_nil] at this
          omega
        refine ⟨x :: c2, 1, rfl, List.Perm.refl _, fun _ => Nat.le_refl 1, ?_⟩
        intro k
        cases k with
        | zero =>
          have h0 := hBS 0
          simp only [Nat.zero_mul, List.drop_zero] at h0 ⊢
          rw [List.take_of_length_le hle] at h0
          rw [List.take_of_length_le (by omega : (x :: c2).length ≤ 2 * s)]
          exact h0
        | succ k =>
          have hge : 2 * s ≤ (k + 1) * (2 * s) := by
            have := Nat.mul_le_mul_right (2 * s) (show 1 ≤ k + 1 by omega)
            simpa using this
          have : List.drop ((k + 1) * (2 * s)) (x :: c2) = [] :=
            List.drop_eq_nil_of_le (by omega)
          rw [this]
          simp
      | cons y rest2 =>
        have hclen : s + (y :: rest2).length = (x :: c2).length := by
          have := congrArg List.length hr
          simp only [List.length_drop] at this
          have hslt : s < (x :: c2).length := by
            by_contra hcon
            rw [List.drop_eq_nil_of_le (by omega)] at hr
            cases hr
          omega
        have hD : List.drop s (y :: rest2) = List.drop (2 * s) (x :: c2) := by
          rw [← hr, List.drop_drop]
          congr 1
          omega
        have hBSD : BlocksSorted cmp s (List.drop s (y :: rest2)) := by
          intro k
          rw [hD, List.drop_drop]
          have := hBS (k + 2)
          rw [show (k + 2) * s = 2 * s + k * s by ring] at this
          exact this
        obtain ⟨r, k, hrr, hperm, _, hBr⟩ := ih (List.drop s (y :: rest2))
          (by
            simp only [List.length_drop]
            omega)
          hBSD
        rw [mergeRound_cons_eq cmp s hs0 x y c2 rest2 hr, hrr]
        have hsortA : (List.take s (x :: c2)).Pairwise (cmpLe cmp) := by
          have h0 := hBS 0
          simpa using h0
        have hsortB : (List.take s (y :: rest2)).Pairwise (cmpLe cmp) := by
          have h1 := hBS 1
          rw [Nat.one_mul, hr] at h1
          exact h1
        have hlenA : (List.take s (x :: c2)).length = s := by
          rw [List.length_take]
          omega
        have hpermM := mergeBySpec_perm cmp (List.take s (x :: c2)) (List.take s (y :: rest2))
        have hsplit2 : List.take s (y :: rest2) ++ List.drop s (y :: rest2) = y :: rest2 :=
          List.take_append_drop s (y :: rest2)
        have hsplit : List.take s (x :: c2) ++ (y :: rest2) = x :: c2 := by
          conv_rhs => rw [← List.take_append_drop s (x :: c2)]
          rw [hr]
        refine ⟨_, k + 1, rfl, ?_, fun _ => by omega, ?_⟩
        · have p1 := hpermM.append_right r
          have p2 := List.Perm.append_left
            (List.take s (x :: c2) ++ List.take s (y :: rest2)) hperm
          have p3 : (List.take s (x :: c2) ++ List.take s (y :: rest2)) ++
              List.drop s (y :: rest2) = x :: c2 := by
            rw [List.append_assoc, hsplit2, hsplit]
          exact (p1.trans p2).trans (by rw [p3])
        · -- the merged pair is one sorted block of size `2*s`; the rest are `r`'s blocks
          have hsortM := mergeBySpec_sorted cmp htot htr _ _ hsortA hsortB
          have hlenM : (mergeBySpec cmp (List.take s (x :: c2))
              (List.take s (y :: rest2))).length =
              s + (List.take s (y :: rest2)).length := by
            rw [hpermM.length_eq, List.length_append, hlenA]
          by_cases hD2 : List.drop s (y :: rest2) = []
          · -- the second sublist was the chain tail: nothing follows the merged pair
            have hrnil : r = [] := by
              have hl := hperm.length_eq
              rw [hD2] at hl
              exact List.eq_nil_of_length_eq_zero (by simpa using hl)
            subst hrnil
            have hlenM2 : (mergeBySpec cmp (List.take s (x :: c2))
                (List.take s (y :: rest2))).length ≤ 2 * s := by
              rw [hlenM, List.length_take]
              omega
            intro j
            cases j with
            | zero =>
              simp only [Nat.zero_mul, List.drop_zero, List.append_nil]
              rw [List.take_of_length_le hlenM2]
              exact hsortM
            | succ j =>
              have hge : 2 * s ≤ (j + 1) * (2 * s) := by
                have := Nat.mul_le_mul_right (2 * s) (show 1 ≤ j + 1 by omega)
                simpa using this
              rw [List.append_nil, List.drop_eq_nil_of_le (by omega)]
              simp
          · -- a full pair was merged: the block has exactly `2*s` payloads
            have hD2len : 1 ≤ (List.drop s (y :: rest2)).length := by
              cases hE : List.drop s (y :: rest2) with
              | nil => exact absurd hE hD2
              | cons z zs => simp [hE]
            have hBfull : (List.take s (y :: rest2)).length = s := by
              rw [List.length_take]
              have := List.length_drop s (y :: rest2)
              omega
            have hlenM2 : (mergeBySpec cmp (List.take s (x :: c2))
                (List.take s (y :: rest2))).length = 2 * s := by
              rw [hlenM, hBfull]
              ring
            intro j
            cases j with
            | zero =>
              simp only [Nat.zero_mul, List.drop_zero]
              rw [show 2 * s = (mergeBySpec cmp (List.take s (x :: c2))
                (List.take s (y :: rest2))).length from hlenM2.symm, take_append_length]
              exact hsortM
            | succ j =>
              rw [show (j + 1) * (2 * s) = (mergeBySpec cmp (List.take s (x :: c2))
                  (List.take s (y :: rest2))).length + j * (2 * s) by
                rw [hlenM2]; ring]
              rw [drop_append_length]
              exact hBr j

/-- The doubling loop sorts: provided the cap cannot be reached
(`n ≤ 2 ^ (63 - it) * s`, true for any file-representable node count),
it returns a permutation of the chain with all payloads non-decreasing. -/
theorem mergeSortLoop_correct (cmp : α → α → Int)
    (htot : ∀ a b, cmp a b ≤ 0 ∨ cmp b a ≤ 0) (htr : CmpTrans cmp) :
    ∀ (fuel n : Nat) (c : List α) (s it : Nat),
      64 - it ≤ fuel → 1 ≤ s → c.length = n → BlocksSorted cmp s c →
      n ≤ 2 ^ (63 - it) * s → it ≤ 63 →
      ∃ c2, (mergeSortLoop cmp n c s it).1 = some c2 ∧ c2.Perm c ∧
        c2.Pairwise (cmpLe cmp) := by
  intro fuel
  induction fuel with
  | zero =>
    intro n c s it hfuel hs hlen hBS hbound hit
    omega
  | succ m ih =>
    intro n c s it hfuel hs hlen hBS hbound hit
    rw [mergeSortLoop]
    by_cases hcond : s < n ∧ it < 64
    · obtain ⟨hsn, hit64⟩ := hcond
      rw [dif_pos ⟨hsn, hit64⟩]
      obtain ⟨c2, k, hround, hperm, hk, hBS2⟩ :=
        mergeRound_spec cmp htot htr s hs c.length c (Nat.le_refl _) hBS
      simp only [hround]
      have hcne : c ≠ [] := by
        intro hnil
        rw [hnil] at hlen
        simp at hlen
        omega
      have hk1 := hk hcne
      rw [if_neg (by omega : ¬ k = 0)]
      have hit62 : it ≤ 62 := by
        by_contra hcon
        have h63 : it = 63 := by omega
        rw [h63] at hbound
        simp at hbound
        omega
      have hbound2 : n ≤ 2 ^ (63 - (it + 1)) * (2 * s) := by
        have hsplit : 2 ^ (63 - it) = 2 ^ (63 - (it + 1)) * 2 := by
          rw [← pow_succ]
          congr 1
          omega
        rw [hsplit] at hbound
        calc n ≤ 2 ^ (63 - (it + 1)) * 2 * s := hbound
          _ = 2 ^ (63 - (it + 1)) * (2 * s) := by ring
      obtain ⟨c3, hrun, hperm3, hsorted⟩ := ih n c2 (2 * s) (it + 1) (by omega)
        (by omega) (by rw [hperm.length_eq, hlen]) hBS2 hbound2 (by omega)
      exact ⟨c3, hrun, hperm3.trans hperm, hsorted⟩
    · rw [dif_neg hcond]
      have hit64 : ¬ 64 ≤ it := by omega
      rw [if_neg hit64]
      refine ⟨c, rfl, List.Perm.refl _, ?_⟩
      have hns : n ≤ s := by omega
      have h0 := hBS 0
      simp only [Nat.zero_mul, List.drop_zero] at h0
      rw [List.take_of_length_le (by omega)] at h0
      exact h0

/-- The loop performs at most `⌈log2 nodeCount⌉` rounds: starting from
`sublistSize = 2 ^ iteration`, the final iteration count never exceeds
`Nat.clog 2 n`. -/
theorem mergeSortLoop_iters (cmp : α → α → Int) (n : Nat) :
    ∀ (fuel : Nat) (c : List α) (s it : Nat), 64 - it ≤ fuel →
      s = 2 ^ it → it ≤ Nat.clog 2 n →
      (mergeSortLoop cmp n c s it).2 ≤ Nat.clog 2 n := by
  intro fuel
  induction fuel with
  | zero =>
    intro c s it hfuel hspow hit
    rw [mergeSortLoop, dif_neg (by omega : ¬(s < n ∧ it < 64))]
    exact hit
  | succ m ih =>
    intro c s it hfuel hspow hit
    rw [mergeSortLoop]
    by_cases hcond : s < n ∧ it < 64
    · rw [dif_pos hcond]
      have hlt : it < Nat.clog 2 n :=
        (Nat.pow_lt_iff_lt_clog (by omega)).mp (by rw [← hspow]; exact hcond.1)
      cases hround : mergeRound cmp s c with
      | none =>
        show it + 1 ≤ _
        omega
      | some p =>
        obtain ⟨c2, k⟩ := p
        by_cases hk : k = 0
        · subst hk
          show it + 1 ≤ _
          omega
        · show (if k = 0 then ((none : Option (List α)), it + 1)
              else mergeSortLoop cmp n c2 (2 * s) (it + 1)).2 ≤ Nat.clog 2 n
          rw [if_neg hk]
          exact ih c2 (2 * s) (it + 1) (by omega) (by rw [hspow, pow_succ]; ring) (by omega)
    · rw [dif_neg hcond]
      exact hit

/-- Reaching the iteration cap (64) with work remaining is reported as
failure. -/
theorem mergeSortLoop_cap (cmp : α → α → Int) (n : Nat) (c : List α) (s it : Nat)
    (hsn : s < n) (hit : 64 ≤ it) : (mergeSortLoop cmp n c s it).1 = none := by
  rw [mergeSortLoop, dif_neg (by omega : ¬(s < n ∧ it < 64))]
  simp [hit]

/-- A round completing with zero merges is reported as failure. -/
theorem mergeSortLoop_zero_merges (cmp : α → α → Int) (n : Nat) (c c2 : List α)
    (s it : Nat) (hsn : s < n) (hit : it < 64)
    (hround : mergeRound cmp s c = some (c2, 0)) :
    mergeSortLoop cmp n c s it = (none, it + 1) := by
  rw [mergeSortLoop, dif_pos ⟨hsn, hit⟩]
  simp only [hround]
  simp

/-- `SortMerge` on a nonempty store sorts: the output exists, is a
permutation of the input, and is non-decreasing under the comparator.
The length bound keeps the 64-iteration cap unreachable; every store
representable in a file (a signed 64-bit offset space) satisfies it. -/
theorem SortMerge_sorts (cmp : α → α → Int) (hAs : CmpAntisym cmp)
    (htr : CmpTrans cmp) (R : List α) (hne : R ≠ []) (hlen : R.length ≤ 2 ^ 63) :
    ∃ out, SortMerge cmp R = some out ∧ out.Perm R ∧ out.Pairwise (cmpLe cmp) := by
  have htot := cmpTotal_of_antisym hAs
  rw [SortMerge]
  have hlpos : ¬ R.length = 0 := by
    intro h
    exact hne (List.eq_nil_of_length_eq_zero h)
  rw [if_neg hlpos]
  by_cases h1 : R.length = 1
  · rw [if_pos h1]
    refine ⟨R, rfl, List.Perm.refl _, ?_⟩
    cases R with
    | nil => simp at h1
    | cons a t =>
      have ht : t = [] := by
        simp only [List.length_cons] at h1
        exact List.eq_nil_of_length_eq_zero (by omega)
      subst ht
      simp
  · rw [if_neg h1]
    rw [MergeSortLinkedListIterative, if_neg (by omega : ¬ R.length ≤ 1)]
    obtain ⟨c2, hrun, hperm, hsorted⟩ := mergeSortLoop_correct cmp htot htr 64
      R.length R 1 0 (by omega) (by omega) rfl (blocksSorted_one cmp R)
      (by simpa using hlen) (by omega)
    rw [hrun]
    have hc2 : ¬ c2.length = 0 := by
      rw [hperm.length_eq]
      omega
    refine ⟨c2, ?_, hperm, hsorted⟩
    show (if c2.length = 0 then (none : Option (List α)) else some c2) = some c2
    rw [if_neg hc2]

/-! ### Bubble sort: the pass at the payload level -/

theorem passL_flag_true (cmp : α → α → Int) :
    ∀ (k : Nat) (v : List α), (passL cmp v k true).2 = true := by
  intro k
  induction k with
  | zero => intro v; rw [passL]
  | succ m ih =>
    intro v
    match v with
    | [] => rw [passL]
    | [a] => rw [passL]
    | a :: b :: t =>
      rw [passL]
      by_cases h : 0 < cmp a b
      · rw [if_pos h]
        exact ih (a :: t)
      · rw [if_neg h]
        exact ih (b :: t)

theorem passL_perm (cmp : α → α → Int) :
    ∀ (k : Nat) (v : List α) (sw : Bool), (passL cmp v k sw).1.Perm v := by
  intro k
  induction k with
  | zero => intro v sw; rw [passL]
  | succ m ih =>
    intro v sw
    match v with
    | [] => rw [passL]
    | [a] => rw [passL]
    | a :: b :: t =>
      rw [passL]
      by_cases h : 0 < cmp a b
      · rw [if_pos h]
        exact (List.Perm.cons b (ih (a :: t) true)).trans (List.Perm.swap a b t)
      · rw [if_neg h]
        exact List.Perm.cons a (ih (b :: t) sw)

theorem passL_false_id (cmp : α → α → Int) :
    ∀ (k : Nat) (v : List α), (passL cmp v k false).2 = false →
      (passL cmp v k false).1 = v := by
  intro k
  induction k with
  | zero => intro v _; rw [passL]
  | succ m ih =>
    intro v hfl
    match v with
    | [] => rw [passL]
    | [a] => rw [passL]
    | a :: b :: t =>
      rw [passL] at hfl ⊢
      by_cases h : 0 < cmp a b
      · rw [if_pos h] at hfl
        have hfl2 : (passL cmp (a :: t) m true).2 = false := hfl
        rw [passL_flag_true cmp m (a :: t)] at hfl2
        cases hfl2
      · rw [if_neg h] at hfl ⊢
        have hfl2 : (passL cmp (b :: t) m false).2 = false := hfl
        show a :: (passL cmp (b :: t) m false).1 = a :: b :: t
        rw [ih (b :: t) hfl2]

theorem passL_false_chain (cmp : α → α → Int) :
    ∀ (k : Nat) (v : List α), (passL cmp v k false).2 = false →
      List.Chain' (cmpLe cmp) (v.take (k + 1)) := by
  intro k
  induction k with
  | zero =>
    intro v _
    match v with
    | [] => simp
    | a :: t => simp
  | succ m ih =>
    intro v hfl
    match v with
    | [] => simp
    | [a] => simp
    | a :: b :: t =>
      rw [passL] at hfl
      by_cases h : 0 < cmp a b
      · rw [if_pos h] at hfl
        have hfl2 : (passL cmp (a :: t) m true).2 = false := hfl
        rw [passL_flag_true cmp m (a :: t)] at hfl2
        cases hfl2
      · rw [if_neg h] at hfl
        have hfl2 : (passL cmp (b :: t) m false).2 = false := hfl
        have hrest := ih (b :: t) hfl2
        rw [List.take_succ_cons, List.take_succ_cons]
        rw [List.take_succ_cons] at hrest
        exact List.chain'_cons.mpr ⟨(by omega : cmp a b ≤ 0), hrest⟩

/-- A pass whose step count stays inside the prefix `u` never looks at the
suffix `w`. -/
theorem passL_confine (cmp : α → α → Int) :
    ∀ (k : Nat) (u w : List α) (sw : Bool), k < u.length →
      passL cmp (u ++ w) k sw =
        ((passL cmp u k sw).1 ++ w, (passL cmp u k sw).2) := by
  intro k
  induction k with
  | zero => intro u w sw _; rw [passL, passL]
  | succ m ih =>
    intro u w sw hk
    match u with
    | [] => simp at hk
    | [a] => simp at hk
    | a :: b :: u2 =>
      rw [List.cons_append, List.cons_append, passL, passL]
      by_cases h : 0 < cmp a b
      · rw [if_pos h, if_pos h, ← List.cons_append,
          ih (a :: u2) w true (by simp at hk ⊢; omega)]
        rfl
      · rw [if_neg h, if_neg h, ← List.cons_append,
          ih (b :: u2) w sw (by simp at hk ⊢; omega)]
        rfl

/-- A pass long enough to reach the end of the list carries a maximal
element to the last position. -/
theorem passL_last_max (cmp : α → α → Int)
    (htot : ∀ a b, cmp a b ≤ 0 ∨ cmp b a ≤ 0) (htr : CmpTrans cmp) :
    ∀ (k : Nat) (v : List α) (sw : Bool), v ≠ [] → v.length ≤ k + 1 →
      ∃ u mx, (passL cmp v k sw).1 = u ++ [mx] ∧ ∀ x ∈ v, cmp x mx ≤ 0 := by
  intro k
  induction k with
  | zero =>
    intro v sw hne hlen
    match v with
    | [] => exact absurd rfl hne
    | [a] =>
      refine ⟨[], a, by rw [passL]; rfl, ?_⟩
      intro x hx
      rcases List.mem_singleton.mp hx with rfl
      rcases htot x x with h | h <;> exact h
    | a :: b :: t => simp at hlen
  | succ m ih =>
    intro v sw hne hlen
    match v with
    | [] => exact absurd rfl hne
    | [a] =>
      refine ⟨[], a, by rw [passL]; rfl, ?_⟩
      intro x hx
      rcases List.mem_singleton.mp hx with rfl
      rcases htot x x with h | h <;> exact h
    | a :: b :: t =>
      rw [passL]
      by_cases h : 0 < cmp a b
      · rw [if_pos h]
        obtain ⟨u, mx, hu, hmax⟩ := ih (a :: t) true (by simp)
          (by simp at hlen ⊢; omega)
        refine ⟨b :: u, mx,
          (by show b :: (passL cmp (a :: t) m true).1 = (b :: u) ++ [mx]
              rw [hu]
              rfl), ?_⟩
        have hba : cmp b a ≤ 0 := (htot a b).resolve_left (by omega)
        intro x hx
        rcases List.mem_cons.mp hx with h1 | hx2
        · rw [h1]
          exact hmax a (List.mem_cons_self a t)
        · rcases List.mem_cons.mp hx2 with h2 | hx3
          · rw [h2]
            exact htr b a mx hba (hmax a (List.mem_cons_self a t))
          · exact hmax x (List.mem_cons_of_mem a hx3)
      · rw [if_neg h]
        obtain ⟨u, mx, hu, hmax⟩ := ih (b :: t) sw (by simp)
          (by simp at hlen ⊢; omega)
        refine ⟨a :: u, mx,
          (by show a :: (passL cmp (b :: t) m sw).1 = (a :: u) ++ [mx]
              rw [hu]
              rfl), ?_⟩
        intro x hx
        rcases List.mem_cons.mp hx with h1 | hx2
        · rw [h1]
          exact htr a b mx (by omega) (hmax b (List.mem_cons_self b t))
        · exact hmax x hx2

/-- The bubble outer loop, at the list level: with the classic invariant
(`u` still unsorted, `w` a sorted suffix dominating `u`, and exactly
`left + 1` elements left in `u`), the loop returns a sorted permutation. -/
theorem bubbleLoopL_invariant (cmp : α → α → Int)
    (htot : ∀ a b, cmp a b ≤ 0 ∨ cmp b a ≤ 0) (htr : CmpTrans cmp) :
    ∀ (left : Nat) (u w : List α), u.length = left + 1 →
      w.Pairwise (cmpLe cmp) → (∀ x ∈ u, ∀ y ∈ w, cmp x y ≤ 0) →
      (bubbleLoopL cmp left (u ++ w)).Pairwise (cmpLe cmp) ∧
      (bubbleLoopL cmp left (u ++ w)).Perm (u ++ w) := by
  haveI : IsTrans α (cmpLe cmp) := ⟨fun a b c => htr a b c⟩
  intro left
  induction left with
  | zero =>
    intro u w hlen hw hdom
    rw [bubbleLoopL]
    refine ⟨?_, List.Perm.refl _⟩
    rw [List.pairwise_append]
    refine ⟨?_, hw, hdom⟩
    match u with
    | [a] => simp
  | succ m ih =>
    intro u w hlen hw hdom
    rw [bubbleLoopL]
    have hkc : m + 1 < u.length := by omega
    rw [passL_confine cmp (m + 1) u w false hkc]
    by_cases hfl : (passL cmp u (m + 1) false).2 = true
    · rw [hfl, if_pos rfl]
      obtain ⟨u2, mx, hu2, hmax⟩ := passL_last_max cmp htot htr (m + 1) u false
        (by intro hnil; rw [hnil] at hlen; simp at hlen) (by omega)
      have hpermp := passL_perm cmp (m + 1) u false
      have hmem : mx ∈ u := by
        have : mx ∈ (passL cmp u (m + 1) false).1 := by
          rw [hu2]; simp
        exact hpermp.subset this
      have hlen2 : u2.length = m + 1 := by
        have := hpermp.length_eq
        rw [hu2] at this
        simp at this
        omega
      have hw2 : (mx :: w).Pairwise (cmpLe cmp) := by
        rw [List.pairwise_cons]
        exact ⟨fun y hy => hdom mx hmem y hy, hw⟩
      have hdom2 : ∀ x ∈ u2, ∀ y ∈ mx :: w, cmp x y ≤ 0 := by
        intro x hx y hy
        have hxu : x ∈ u := by
          apply hpermp.subset
          rw [hu2]
          exact List.mem_append.mpr (Or.inl hx)
        rcases List.mem_cons.mp hy with rfl | hy2
        · exact hmax x hxu
        · exact hdom x hxu y hy2
      have hre : (passL cmp u (m + 1) false).1 ++ w = u2 ++ (mx :: w) := by
        rw [hu2, List.append_assoc, List.singleton_append]
      rw [hre]
      obtain ⟨hs, hp⟩ := ih u2 (mx :: w) hlen2 hw2 hdom2
      refine ⟨hs, hp.trans ?_⟩
      rw [← hre]
      exact (hpermp.append_right w)
    · rw [Bool.not_eq_true] at hfl
      rw [hfl]
      simp only [Bool.false_eq_true, if_false]
      rw [passL_false_id cmp (m + 1) u hfl]
      refine ⟨?_, List.Perm.refl _⟩
      rw [List.pairwise_append]
      refine ⟨?_, hw, hdom⟩
      have hchain := passL_false_chain cmp (m + 1) u hfl
      rw [List.take_of_length_le (by omega)] at hchain
      exact List.chain'_iff_pairwise.mp hchain

/-- Bubble sort at the list level sorts: `nodeCount - 1` passes of
decreasing length starting from the full list produce a sorted
permutation. -/
theorem bubbleLoopL_sorts (cmp : α → α → Int)
    (htot : ∀ a b, cmp a b ≤ 0 ∨ cmp b a ≤ 0) (htr : CmpTrans cmp)
    (v : List α) (hne : v ≠ []) :
    (bubbleLoopL cmp (v.length - 1) v).Pairwise (cmpLe cmp) ∧
    (bubbleLoopL cmp (v.length - 1) v).Perm v := by
  have hlen : v.length = (v.length - 1) + 1 := by
    cases v with
    | nil => exact absurd rfl hne
    | cons a t => simp
  obtain ⟨hs, hp⟩ := bubbleLoopL_invariant cmp htot htr (v.length - 1) v []
    hlen List.Pairwise.nil (by intro x _ y hy; cases hy)
  rw [List.append_nil] at hs hp
  exact ⟨hs, hp⟩

/-- Simulation of the file-level inner pass by the list-level pass: on a
built chain, walking from the node at position `|p|`, each step reads the
adjacent pair, swaps payloads exactly when the list-level pass does, and
the resulting file is the build of the passed record sequence. -/
theorem bubbleInner_sim (cmp : α → α → Int) (s : Nat) :
    ∀ (k : Nat) (p w : List α) (sw : Bool), w ≠ [] →
      bubbleInner cmp (buildNodes s (p ++ w) 0) (nodeOffset s p.length) k sw =
        some (buildNodes s (p ++ (passL cmp w k sw).1) 0, (passL cmp w k sw).2) := by
  intro k
  induction k with
  | zero =>
    intro p w sw _
    rw [bubbleInner, passL]
  | succ m ih =>
    intro p w sw hne
    match w with
    | [] => exact absurd rfl hne
    | [a] =>
      rw [bubbleInner]
      have hl := lookupNode_buildNodes s p a [] 0
      simp only [Nat.zero_add] at hl
      simp only [hl]
      have hnx : builtNext s p.length ([] : List α) = -1 := rfl
      simp only [hnx, if_pos rfl]
      have hih := ih p [a] sw (by simp)
      rw [hih, passL]
      have hp1 : (passL cmp [a] m sw) = ([a], sw) := by
        cases m <;> rw [passL]
      rw [hp1, if_true]
    | a :: b :: t =>
      rw [bubbleInner]
      have hl := lookupNode_buildNodes s p a (b :: t) 0
      simp only [Nat.zero_add] at hl
      simp only [hl]
      have hnx : builtNext s p.length (b :: t) = nodeOffset s (p.length + 1) := rfl
      simp only [hnx, if_neg (nodeOffset_ne_neg_one s (p.length + 1))]
      have hl2 : lookupNode (buildNodes s (p ++ a :: b :: t) 0)
          (nodeOffset s (p.length + 1)) =
          some ⟨⟨builtPrev s (p.length + 1), builtNext s (p.length + 1) t, s⟩, b⟩ := by
        have := lookupNode_buildNodes s (p ++ [a]) b t 0
        simp only [Nat.zero_add, List.length_append, List.length_cons,
          List.length_nil, List.append_assoc, List.singleton_append] at this
        exact this
      simp only [hl2]
      rw [passL]
      by_cases h : 0 < cmp a b
      · rw [if_pos h, if_pos h]
        have hu1 : updatePayload (buildNodes s (p ++ a :: b :: t) 0)
            (nodeOffset s p.length) b = buildNodes s (p ++ b :: b :: t) 0 := by
          have := updatePayload_buildNodes s b p a (b :: t) 0
          simpa using this
        have hu2 : updatePayload (buildNodes s (p ++ b :: b :: t) 0)
            (nodeOffset s (p.length + 1)) a = buildNodes s (p ++ b :: a :: t) 0 := by
          have := updatePayload_buildNodes s a (p ++ [b]) b t 0
          simp only [Nat.zero_add, List.length_append, List.length_cons,
            List.length_nil, List.append_assoc, List.singleton_append] at this
          exact this
        rw [hu1, hu2]
        have := ih (p ++ [b]) (a :: t) true (by simp)
        simp only [List.length_append, List.length_cons, List.length_nil,
          List.append_assoc, List.singleton_append] at this
        rw [this]
      · rw [if_neg h, if_neg h]
        have := ih (p ++ [a]) (b :: t) sw (by simp)
        simp only [List.length_append, List.length_cons, List.length_nil,
          List.append_assoc, List.singleton_append] at this
        rw [this]

/-- Simulation of the file-level pass loop by the list-level loop. -/
theorem bubbleLoop_sim (cmp : α → α → Int) (s : Nat) :
    ∀ (left : Nat) (v : List α), v ≠ [] →
      bubbleLoop cmp (nodeOffset s 0) left (buildNodes s v 0) =
        some (buildNodes s (bubbleLoopL cmp left v) 0) := by
  intro left
  induction left with
  | zero =>
    intro v _
    rw [bubbleLoop, bubbleLoopL]
  | succ m ih =>
    intro v hne
    have hne2 : (passL cmp v (m + 1) false).1 ≠ [] := by
      intro hnil
      have := (passL_perm cmp (m + 1) v false).length_eq
      rw [hnil] at this
      cases v with
      | nil => exact hne rfl
      | cons a t => simp at this
    rw [bubbleLoop, bubbleLoopL]
    have hsim := bubbleInner_sim cmp s (m + 1) [] v false hne
    simp only [List.nil_append, List.length_nil] at hsim
    simp only [hsim]
    by_cases hfl : (passL cmp v (m + 1) false).2 = true
    · simp only [hfl, if_true]
      exact ih (passL cmp v (m + 1) false).1 hne2
    · rw [Bool.not_eq_true] at hfl
      simp only [hfl, Bool.false_eq_true, if_false]

/-- `SortBubble` on a nonempty store sorts: the output exists, is a
permutation of the input, and is non-decreasing under the comparator. -/
theorem SortBubble_sorts (cmp : α → α → Int) (hAs : CmpAntisym cmp)
    (htr : CmpTrans cmp) (s : Nat) (R : List α) (hne : R ≠ []) :
    ∃ out, SortBubble cmp s R = some out ∧ out.Perm R ∧
      out.Pairwise (cmpLe cmp) := by
  have htot := cmpTotal_of_antisym hAs
  have hlpos : ¬ R.length = 0 := by
    intro h
    exact hne (List.eq_nil_of_length_eq_zero h)
  rw [SortBubble]
  simp only [if_neg hlpos]
  by_cases h1 : R.length = 1
  · rw [if_pos h1]
    refine ⟨R, roundTrip s R, List.Perm.refl _, ?_⟩
    cases R with
    | nil => simp at h1
    | cons a t =>
      have ht : t = [] := by
        simp only [List.length_cons] at h1
        exact List.eq_nil_of_length_eq_zero (by omega)
      subst ht
      simp
  · rw [if_neg h1]
    obtain ⟨hsorted, hperm⟩ := bubbleLoopL_sorts cmp htot htr R hne
    have hw : bubbleLoopL cmp (R.length - 1) R ≠ [] := by
      intro hnil
      have := hperm.length_eq
      rw [hnil] at this
      exact hlpos this.symm
    have hwlen : ¬ (bubbleLoopL cmp (R.length - 1) R).length = 0 := by
      intro h
      exact hw (List.eq_nil_of_length_eq_zero h)
    have hhead : (CreateLinkedListFromFile s R).2.1.headOffset = nodeOffset s 0 := by
      simp [CreateLinkedListFromFile, hlpos]
    have hloop : bubbleLoop cmp (CreateLinkedListFromFile s R).2.1.headOffset
        ((CreateLinkedListFromFile s R).2.1.nodeCount - 1)
        (CreateLinkedListFromFile s R).1 =
        some (buildNodes s (bubbleLoopL cmp (R.length - 1) R) 0) := by
      rw [hhead]
      exact bubbleLoop_sim cmp s (R.length - 1) R hne
    have hflat : ConvertLinkedListToFile
        (buildNodes s (bubbleLoopL cmp (R.length - 1) R) 0)
        (CreateLinkedListFromFile s R).2.1 =
        some (bubbleLoopL cmp (R.length - 1) R) := by
      rw [ConvertLinkedListToFile, hhead]
      have hcount : (CreateLinkedListFromFile s R).2.1.nodeCount =
          (bubbleLoopL cmp (R.length - 1) R).length := hperm.length_eq.symm
      rw [hcount]
      have := flattenLoop_buildNodes s (bubbleLoopL cmp (R.length - 1) R) [] hw
      simpa using this
    refine ⟨bubbleLoopL cmp (R.length - 1) R, ?_, hperm, hsorted⟩
    simp only [hloop, hflat, if_neg hwlen]

/-! ### The binary search layer -/

/-- A comparator satisfying the §6 consistency contract compares every
value equal to itself. -/
theorem cmp_self_eq_zero (cmp : α → α → Int) (hAs : CmpAntisym cmp) (a : α) :
    cmp a a = 0 := by
  rcases le_or_lt (cmp a a) 0 with h | h
  · exact le_antisymm h ((hAs a a).mp h)
  · exact absurd ((hAs a a).mpr (le_of_lt h)) (not_le.mpr h)

/-- In a store sorted under the comparator, an earlier record compares
`<= 0` against a later (or equal) one. -/
theorem sorted_getD_le (cmp : α → α → Int) (hAs : CmpAntisym cmp)
    (l : List α) (hs : l.Pairwise (cmpLe cmp)) (d : α) (i j : Nat)
    (hij : i ≤ j) (hj : j < l.length) :
    cmp (l.getD i d) (l.getD j d) ≤ 0 := by
  rcases Nat.eq_or_lt_of_le hij with h | h
  · subst h
    exact le_of_eq (cmp_self_eq_zero cmp hAs (l.getD i d))
  · have hi : i < l.length := lt_trans h hj
    have hp := List.pairwise_iff_get.mp hs ⟨i, hi⟩ ⟨j, hj⟩ h
    rw [List.getD_eq_getElem l d hi, List.getD_eq_getElem l d hj]
    exact hp

/-- Records comparing equal to the key lie between any two that do:
the matching positions of a sorted store form an interval. -/
theorem cmp_zero_between (cmp : α → α → Int) (hAs : CmpAntisym cmp)
    (htr : CmpTrans cmp) (key : α) (l : List α)
    (hs : l.Pairwise (cmpLe cmp)) (i m j : Nat) (him : i ≤ m) (hmj : m ≤ j)
    (hj : j < l.length) (hi0 : cmp key (l.getD i key) = 0)
    (hj0 : cmp key (l.getD j key) = 0) : cmp key (l.getD m key) = 0 := by
  have hm : m < l.length := Nat.lt_of_le_of_lt hmj hj
  have h1 : cmp key (l.getD m key) ≤ 0 :=
    htr key (l.getD i key) (l.getD m key) (le_of_eq hi0)
      (sorted_getD_le cmp hAs l hs key i m him hm)
  have h2 : cmp (l.getD j key) key ≤ 0 :=
    (hAs (l.getD j key) key).mpr (by omega)
  have h3 : cmp (l.getD m key) key ≤ 0 :=
    htr (l.getD m key) (l.getD j key) key
      (sorted_getD_le cmp hAs l hs key m j hmj hj) h2
  have h4 : 0 ≤ cmp key (l.getD m key) := (hAs (l.getD m key) key).mp h3
  omega

/-- If the key compares strictly below position `m` of a sorted store,
no position at or after `m` matches it. -/
theorem no_match_of_key_lt (cmp : α → α → Int) (hAs : CmpAntisym cmp)
    (htr : CmpTrans cmp) (key : α) (l : List α)
    (hs : l.Pairwise (cmpLe cmp)) (m : Nat)
    (hlt : cmp key (l.getD m key) < 0) (j : Nat) (hmj : m ≤ j)
    (hj : j < l.length) : cmp key (l.getD j key) ≠ 0 := by
  intro h0
  have hb : cmp (l.getD m key) (l.getD j key) ≤ 0 :=
    sorted_getD_le cmp hAs l hs key m j hmj hj
  have hc : cmp (l.getD j key) key ≤ 0 := (hAs (l.getD j key) key).mpr (by omega)
  have hd : cmp (l.getD m key) key ≤ 0 := htr _ _ _ hb hc
  have he : 0 ≤ cmp key (l.getD m key) := (hAs (l.getD m key) key).mp hd
  omega

/-- If the key compares strictly above position `m` of a sorted store,
no position at or before `m` matches it. -/
theorem no_match_of_lt_key (cmp : α → α → Int) (hAs : CmpAntisym cmp)
    (htr : CmpTrans cmp) (key : α) (l : List α)
    (hs : l.Pairwise (cmpLe cmp)) (m : Nat) (hm : m < l.length)
    (hlt : 0 < cmp key (l.getD m key)) (j : Nat) (hjm : j ≤ m) :
    cmp key (l.getD j key) ≠ 0 := by
  intro h0
  have hb : cmp (l.getD j key) (l.getD m key) ≤ 0 :=
    sorted_getD_le cmp hAs l hs key j m hjm hm
  have hd : cmp key (l.getD m key) ≤ 0 := htr _ _ _ (le_of_eq h0) hb
  omega

/-- Probing a failure-free store inside its bounds reads back the record
stored there. -/
theorem readStore_map_some (l : List α) (d : α) (i : Int) (h0 : 0 ≤ i)
    (h : i.toNat < l.length) :
    readStore (l.map some) i = some (l.getD i.toNat d) := by
  rw [readStore, if_neg (by omega)]
  rw [List.getD_eq_getElem (l.map some) none (by simpa using h)]
  rw [List.getElem_map]
  rw [List.getD_eq_getElem l d h]

/-- Completeness of the binary search loop on a failure-free sorted
store: if some position inside the current window matches the key, the
loop (given fuel at least the window size) returns found with a matching
position inside the window. -/
theorem searchLoop_found (cmp : α → α → Int) (hAs : CmpAntisym cmp)
    (htr : CmpTrans cmp) (key : α) (l : List α)
    (hs : l.Pairwise (cmpLe cmp)) :
    ∀ (fuel : Nat) (lb rb : Int) (j : Nat),
      (rb - lb + 1).toNat ≤ fuel → 0 ≤ lb → rb < (l.length : Int) →
      lb ≤ (j : Int) → (j : Int) ≤ rb → cmp key (l.getD j key) = 0 →
      ∃ p c, searchLoop cmp key (l.map some) fuel lb rb = (1, p, c) ∧
        lb ≤ p ∧ p ≤ rb ∧ cmp key (l.getD p.toNat key) = 0 := by
  intro fuel
  induction fuel with
  | zero =>
    intro lb rb j hfuel h0 hn hlj hjr hj
    exact absurd hfuel (by omega)
  | succ fuel ih =>
    intro lb rb j hfuel h0 hn hlj hjr hj
    have hlr : lb ≤ rb := le_trans hlj hjr
    have hjl : j < l.length := by omega
    simp only [searchLoop]
    rw [if_pos hlr]
    set m := lb + (rb - lb) / 2 with hm
    have hm1 : lb ≤ m := by omega
    have hm2 : m ≤ rb := by omega
    have h0m : 0 ≤ m := by omega
    have hmn : m.toNat < l.length := by omega
    simp only [readStore_map_some l key m h0m hmn]
    by_cases hc0 : cmp key (l.getD m.toNat key) = 0
    · rw [if_pos hc0]
      exact ⟨m, 1, rfl, hm1, hm2, hc0⟩
    · rw [if_neg hc0]
      by_cases hcneg : cmp key (l.getD m.toNat key) < 0
      · rw [if_pos hcneg]
        have hjm : (j : Int) ≤ m - 1 := by
          by_contra hco
          exact no_match_of_key_lt cmp hAs htr key l hs m.toNat hcneg j
            (by omega) hjl hj
        obtain ⟨p, c, hr, hp1, hp2, hp3⟩ :=
          ih lb (m - 1) j (by omega) h0 (by omega) hlj hjm hj
        exact ⟨p, c + 1, by rw [hr], hp1, by omega, hp3⟩
      · rw [if_neg hcneg]
        have hjm : m + 1 ≤ (j : Int) := by
          by_contra hco
          exact no_match_of_lt_key cmp hAs htr key l hs m.toNat hmn
            (by omega) j (by omega) hj
        obtain ⟨p, c, hr, hp1, hp2, hp3⟩ :=
          ih (m + 1) rb j (by omega) (by omega) hn hjm hjr hj
        exact ⟨p, c + 1, by rw [hr], by omega, hp2, hp3⟩

/-- The binary search loop on a failure-free store with no matching
record anywhere returns not-found. -/
theorem searchLoop_notFound (cmp : α → α → Int) (key : α) (l : List α)
    (hnm : ∀ m : Nat, m < l.length → cmp key (l.getD m key) ≠ 0) :
    ∀ (fuel : Nat) (lb rb : Int),
      (rb - lb + 1).toNat ≤ fuel → 0 ≤ lb → rb < (l.length : Int) →
      ∃ c, searchLoop cmp key (l.map some) fuel lb rb = (0, -1, c) := by
  intro fuel
  induction fuel with
  | zero =>
    intro lb rb _ _ _
    exact ⟨0, rfl⟩
  | succ fuel ih =>
    intro lb rb hfuel h0 hn
    by_cases hlr : lb ≤ rb
    · simp only [searchLoop]
      rw [if_pos hlr]
      set m := lb + (rb - lb) / 2 with hm
      have h0m : 0 ≤ m := by omega
      have hmn : m.toNat < l.length := by omega
      simp only [readStore_map_some l key m h0m hmn]
      rw [if_neg (hnm m.toNat hmn)]
      by_cases hcneg : cmp key (l.getD m.toNat key) < 0
      · rw [if_pos hcneg]
        obtain ⟨c, hr⟩ := ih lb (m - 1) (by omega) h0 (by omega)
        exact ⟨c + 1, by rw [hr]⟩
      · rw [if_neg hcneg]
        obtain ⟨c, hr⟩ := ih (m + 1) rb (by omega) (by omega) hn
        exact ⟨c + 1, by rw [hr]⟩
    · simp only [searchLoop]
      rw [if_neg hlr]
      exact ⟨0, rfl⟩

/-- The left expansion never moves the range start to the right,
whatever the store holds — including when a probe fails. -/
theorem expandLeft_le (cmp : α → α → Int) (key : α)
    (store : List (Option α)) :
    ∀ (fuel : Nat) (cp rs : Int), cp < rs →
      expandLeft cmp key store fuel cp rs ≤ rs := by
  intro fuel
  induction fuel with
  | zero =>
    intro cp rs h
    exact le_refl rs
  | succ fuel ih =>
    intro cp rs h
    simp only [expandLeft]
    by_cases h0 : 0 ≤ cp
    · rw [if_pos h0]
      cases hread : readStore store cp with
      | none =>
        exact le_refl rs
      | some cur =>
        show (if cmp key cur = 0 then
            expandLeft cmp key store fuel (cp - 1) cp else rs) ≤ rs
        by_cases hc : cmp key cur = 0
        · rw [if_pos hc]
          exact le_trans (ih (cp - 1) cp (by omega)) (by omega)
        · rw [if_neg hc]
    · rw [if_neg h0]

/-- The right expansion never moves the range end to the left, whatever
the store holds — including when a probe fails. -/
theorem expandRight_ge (cmp : α → α → Int) (key : α)
    (store : List (Option α)) :
    ∀ (fuel : Nat) (cp rs : Int), rs < cp →
      rs ≤ expandRight cmp key store fuel cp rs := by
  intro fuel
  induction fuel with
  | zero =>
    intro cp rs h
    exact le_refl rs
  | succ fuel ih =>
    intro cp rs h
    simp only [expandRight]
    by_cases h0 : cp < ((store.length : Nat) : Int)
    · rw [if_pos h0]
      cases hread : readStore store cp with
      | none =>
        exact le_refl rs
      | some cur =>
        show rs ≤ (if cmp key cur = 0 then
            expandRight cmp key store fuel (cp + 1) cp else rs)
        by_cases hc : cmp key cur = 0
        · rw [if_pos hc]
          exact le_trans (by omega) (ih (cp + 1) cp (by omega))
        · rw [if_neg hc]
    · rw [if_neg h0]

/-- Characterisation of the left expansion on a failure-free store:
starting just left of a matching position it stops at the left end of the
matching block — everything from the result up to the start matches, and
the position one further left (if any) does not. -/
theorem expandLeft_spec (cmp : α → α → Int) (key : α) (l : List α) :
    ∀ (fuel : Nat) (cp rs : Int), rs = cp + 1 → 0 ≤ rs →
      rs < (l.length : Int) → cmp key (l.getD rs.toNat key) = 0 →
      (cp + 1).toNat + 1 ≤ fuel →
      ∃ s : Int, expandLeft cmp key (l.map some) fuel cp rs = s ∧
        0 ≤ s ∧ s ≤ rs ∧
        (∀ m : Nat, s ≤ (m : Int) → (m : Int) ≤ rs →
          cmp key (l.getD m key) = 0) ∧
        (s = 0 ∨ cmp key (l.getD (s - 1).toNat key) ≠ 0) := by
  intro fuel
  induction fuel with
  | zero =>
    intro cp rs h1 h2 h3 h4 hfuel
    exact absurd hfuel (by omega)
  | succ fuel ih =>
    intro cp rs h1 h2 h3 h4 hfuel
    simp only [expandLeft]
    by_cases h0 : 0 ≤ cp
    · rw [if_pos h0]
      have hcn : cp.toNat < l.length := by omega
      simp only [readStore_map_some l key cp h0 hcn]
      by_cases hc : cmp key (l.getD cp.toNat key) = 0
      · rw [if_pos hc]
        obtain ⟨s, hs1, hs2, hs3, hs4, hs5⟩ :=
          ih (cp - 1) cp (by omega) h0 (by omega)
            (by rw [show cp.toNat = cp.toNat from rfl]; exact hc) (by omega)
        refine ⟨s, hs1, hs2, by omega, ?_, hs5⟩
        intro mm hm1 hm2
        by_cases hmc : (mm : Int) ≤ cp
        · exact hs4 mm hm1 hmc
        · have hmr : mm = rs.toNat := by omega
          rw [hmr]
          exact h4
      · rw [if_neg hc]
        refine ⟨rs, rfl, h2, le_refl rs, ?_, ?_⟩
        · intro mm hm1 hm2
          have hmr : mm = rs.toNat := by omega
          rw [hmr]
          exact h4
        · right
          have hcp : (rs - 1).toNat = cp.toNat := by omega
          rw [hcp]
          exact hc
    · rw [if_neg h0]
      refine ⟨rs, rfl, h2, le_refl rs, ?_, Or.inl (by omega)⟩
      intro mm hm1 hm2
      have hmr : mm = rs.toNat := by omega
      rw [hmr]
      exact h4

/-- Characterisation of the right expansion on a failure-free store:
starting just right of a matching position it stops at the right end of
the matching block. -/
theorem expandRight_spec (cmp : α → α → Int) (key : α) (l : List α) :
    ∀ (fuel : Nat) (cp rs : Int), cp = rs + 1 → 0 ≤ rs →
      rs < (l.length : Int) → cmp key (l.getD rs.toNat key) = 0 →
      l.length - cp.toNat + 1 ≤ fuel →
      ∃ e : Int, expandRight cmp key (l.map some) fuel cp rs = e ∧
        rs ≤ e ∧ e < (l.length : Int) ∧
        (∀ m : Nat, rs ≤ (m : Int) → (m : Int) ≤ e →
          cmp key (l.getD m key) = 0) ∧
        (e = (l.length : Int) - 1 ∨ cmp key (l.getD (e + 1).toNat key) ≠ 0) := by
  intro fuel
  induction fuel with
  | zero =>
    intro cp rs h1 h2 h3 h4 hfuel
    exact absurd hfuel (by omega)
  | succ fuel ih =>
    intro cp rs h1 h2 h3 h4 hfuel
    simp only [expandRight, List.length_map]
    by_cases hg : cp < (l.length : Int)
    · rw [if_pos hg]
      have hcn : cp.toNat < l.length := by omega
      simp only [readStore_map_some l key cp (by omega) hcn]
      by_cases hc : cmp key (l.getD cp.toNat key) = 0
      · rw [if_pos hc]
        obtain ⟨e, he1, he2, he3, he4, he5⟩ :=
          ih (cp + 1) cp rfl (by omega) hg hc (by omega)
        refine ⟨e, he1, by omega, he3, ?_, he5⟩
        intro mm hm1 hm2
        by_cases hmc : cp ≤ (mm : Int)
        · exact he4 mm hmc hm2
        · have hmr : mm = rs.toNat := by omega
          rw [hmr]
          exact h4
      · rw [if_neg hc]
        refine ⟨rs, rfl, le_refl rs, h3, ?_, ?_⟩
        · intro mm hm1 hm2
          have hmr : mm = rs.toNat := by omega
          rw [hmr]
          exact h4
        · right
          have hcp : (rs + 1).toNat = cp.toNat := by omega
          rw [hcp]
          exact hc
    · rw [if_neg hg]
      refine ⟨rs, rfl, le_refl rs, h3, ?_, Or.inl (by omega)⟩
      intro mm hm1 hm2
      have hmr : mm = rs.toNat := by omega
      rw [hmr]
      exact h4

end Dbms

/-! ## Claim theorems (first batch) -/

namespace Dbms

/-- **C2**: for every Record Store `R` (any record count, including 0
and 1), building a Disk Linked List with `CreateLinkedListFromFile` and
flattening it with `ConvertLinkedListToFile` yields the same records in
the same order. -/
theorem build_flatten_roundTrip (α : Type) (s : Nat) (R : List α) :
    ConvertLinkedListToFile (CreateLinkedListFromFile s R).1
      (CreateLinkedListFromFile s R).2.1 = some R :=
  roundTrip s R

/-- **C10**: the node primitives validate their arguments before touching
the file: a null file pointer, a negative node offset (including the `-1`
sentinel), or a null header pointer makes `ReadNodeFromList` and
`WriteNodeToList` return failure with zero seek/read/write operations
performed (and, for the write, an unchanged file); a valid call with a
null data buffer is a header-only operation that succeeds and leaves the
node's payload (and every other node) untouched. -/
theorem node_primitives_guards (α : Type) [Inhabited α] :
    (∀ (off : Int) (w hp : Bool),
      ReadNodeFromList (none : Option (ListFile α)) off w hp = (none, 0)) ∧
    (∀ (f : ListFile α) (off : Int) (w hp : Bool), off < 0 →
      ReadNodeFromList (some f) off w hp = (none, 0)) ∧
    (∀ (fo : Option (ListFile α)) (off : Int) (w : Bool),
      ReadNodeFromList fo off w false = (none, 0)) ∧
    (∀ (off : Int) (d : Option α) (ho : Option DoublyLinkedNodeHeader),
      WriteNodeToList (none : Option (ListFile α)) off d ho = (false, none, 0)) ∧
    (∀ (f : ListFile α) (off : Int) (d : Option α) (h : DoublyLinkedNodeHeader),
      off < 0 → WriteNodeToList (some f) off d (some h) = (false, some f, 0)) ∧
    (∀ (fo : Option (ListFile α)) (off : Int) (d : Option α),
      WriteNodeToList fo off d none = (false, fo, 0)) ∧
    (∀ (f : ListFile α) (off : Int) (nd : DiskNode α), 0 ≤ off →
      lookupNode f off = some nd →
      ReadNodeFromList (some f) off false true = (some (nd.header, none), 2)) ∧
    (∀ (f : ListFile α) (off : Int) (nd : DiskNode α) (h : DoublyLinkedNodeHeader),
      0 ≤ off → lookupNode f off = some nd →
      WriteNodeToList (some f) off none (some h) =
        (true, some (updateHeader f off h), 2) ∧
      lookupNode (updateHeader f off h) off = some ⟨h, nd.payload⟩ ∧
      ∀ o, o ≠ off → lookupNode (updateHeader f off h) o = lookupNode f o) := by
  refine ⟨?_, ?_, ?_, ?_, ?_, ?_, ?_, ?_⟩
  · intro off w hp
    cases hp <;> rfl
  · intro f off w hp hneg
    cases hp
    · rfl
    · rw [ReadNodeFromList, if_neg (by omega : ¬ 0 ≤ off)]
  · intro fo off w
    cases fo <;> rfl
  · intro off d ho
    cases ho <;> rfl
  · intro f off d h hneg
    have hno : ¬ 0 ≤ off := by omega
    simp [WriteNodeToList, hno]
  · intro fo off d
    cases fo <;> rfl
  · intro f off nd hnn hnd
    simp [ReadNodeFromList, hnn, hnd]
  · intro f off nd h hnn hnd
    refine ⟨?_, ?_, ?_⟩
    · simp [WriteNodeToList, hnn, hnd]
    · rw [lookupNode_updateHeader, if_pos rfl, hnd]
      rfl
    · intro o hne
      rw [lookupNode_updateHeader, if_neg hne]

theorem node_primitives_guards_witness :
    ReadNodeFromList (none : Option (ListFile Int)) (-1) true true = (none, 0) ∧
    ReadNodeFromList (some ([((32 : Int), (⟨⟨-1, -1, 4⟩, (7 : Int)⟩ : DiskNode Int))]))
      (-1) true true = (none, 0) ∧
    ReadNodeFromList (some ([((32 : Int), (⟨⟨-1, -1, 4⟩, (7 : Int)⟩ : DiskNode Int))]))
      32 true false = (none, 0) ∧
    WriteNodeToList (none : Option (ListFile Int)) 32 (some 5) (some ⟨-1, -1, 4⟩) =
      (false, none, 0) ∧
    WriteNodeToList (some ([((32 : Int), (⟨⟨-1, -1, 4⟩, (7 : Int)⟩ : DiskNode Int))]))
      (-1) (some 5) (some ⟨-1, -1, 4⟩) =
      (false, some ([((32 : Int), (⟨⟨-1, -1, 4⟩, (7 : Int)⟩ : DiskNode Int))]), 0) ∧
    ReadNodeFromList (some ([((32 : Int), (⟨⟨-1, -1, 4⟩, (7 : Int)⟩ : DiskNode Int))]))
      32 false true = (some (⟨-1, -1, 4⟩, none), 2) ∧
    WriteNodeToList (some ([((32 : Int), (⟨⟨-1, -1, 4⟩, (7 : Int)⟩ : DiskNode Int))]))
      32 none (some ⟨-1, 60, 4⟩) =
      (true, some (updateHeader [((32 : Int), (⟨⟨-1, -1, 4⟩, (7 : Int)⟩ : DiskNode Int))]
        32 ⟨-1, 60, 4⟩), 2) ∧
    lookupNode (updateHeader [((32 : Int), (⟨⟨-1, -1, 4⟩, (7 : Int)⟩ : DiskNode Int))]
      32 ⟨-1, 60, 4⟩) 32 = some ⟨⟨-1, 60, 4⟩, 7⟩ := by
  obtain ⟨g1, g2, g3, g4, g5, _, g7, g8⟩ := node_primitives_guards Int
  have h8 := g8 [((32 : Int), (⟨⟨-1, -1, 4⟩, (7 : Int)⟩ : DiskNode Int))] 32
    ⟨⟨-1, -1, 4⟩, 7⟩ ⟨-1, 60, 4⟩ (by decide) (by decide)
  exact ⟨g1 (-1) true true,
    g2 _ (-1) true true (by decide),
    g3 _ 32 true,
    g4 32 (some 5) (some ⟨-1, -1, 4⟩),
    g5 _ (-1) (some 5) ⟨-1, -1, 4⟩ (by decide),
    g7 _ 32 ⟨⟨-1, -1, 4⟩, 7⟩ (by decide) (by decide),
    h8.1, h8.2.1⟩

/-- **C8**: during `SortBubble` every swap of an out-of-order adjacent
pair rewrites only the payload bytes at the two node offsets; node headers
(hence every `prevOffset`/`nextOffset` link) are unchanged by the entire
pass loop, so the topology after the sort equals the topology before it;
the same holds for the `SwapAdjacentNodesInList` helper, whose two writes
re-write each node's own unchanged header. -/
theorem bubble_swap_preserves_topology (α : Type) [Inhabited α] (cmp : α → α → Int) :
    (∀ (f : ListFile α) (off1 off2 : Int) (f2 : ListFile α),
      SwapAdjacentNodesInList f off1 off2 = some f2 →
      ∀ o, headerAt f2 o = headerAt f o) ∧
    (∀ (head : Int) (left : Nat) (f f2 : ListFile α),
      bubbleLoop cmp head left f = some f2 →
      ∀ o, headerAt f2 o = headerAt f o) :=
  ⟨fun f off1 off2 f2 hrun => headerAt_swapAdjacent f off1 off2 f2 hrun,
   fun head left f f2 hrun => headerAt_bubbleLoop cmp head left f f2 hrun⟩

/-- **C1 (amended)**: for every comparator satisfying the §6 contract
(consistent and transitive) and every **nonempty** Record Store of
file-representable size, `SortBubble` and `SortMerge` (each building the
linked list, sorting it, flattening it back) both produce an output record
sequence that is non-decreasing under `cmp` and a permutation of the
input.  The original claim also covered the empty store, on which both
drivers return the error `-1` and produce no output (see the
counterexample). -/
theorem sort_correctness_nonempty (α : Type) (cmp : α → α → Int)
    (hAs : CmpAntisym cmp) (htr : CmpTrans cmp) (s : Nat) (R : List α)
    (hne : R ≠ []) (hlen : R.length ≤ 2 ^ 63) :
    ∃ outB outM, SortBubble cmp s R = some outB ∧ SortMerge cmp R = some outM ∧
      outB.Perm R ∧ outM.Perm R ∧ outB.Pairwise (cmpLe cmp) ∧
      outM.Pairwise (cmpLe cmp) := by
  obtain ⟨oB, hB, hBp, hBs⟩ := SortBubble_sorts cmp hAs htr s R hne
  obtain ⟨oM, hM, hMp, hMs⟩ := SortMerge_sorts cmp hAs htr R hne hlen
  exact ⟨oB, oM, hB, hM, hBp, hMp, hBs, hMs⟩

theorem sort_correctness_empty_store_cex :
    SortBubble (fun a b => a - b) 7 ([] : List Int) = none := rfl

theorem sort_correctness_nonempty_witness :
    ∃ outB outM,
      SortBubble (fun a b => a - b) 4 ([5, 3, 1, 4, 2] : List Int) = some outB ∧
      SortMerge (fun a b => a - b) ([5, 3, 1, 4, 2] : List Int) = some outM ∧
      outB.Perm [5, 3, 1, 4, 2] ∧ outM.Perm [5, 3, 1, 4, 2] ∧
      outB.Pairwise (cmpLe (fun a b => a - b)) ∧
      outM.Pairwise (cmpLe (fun a b => a - b)) :=
  sort_correctness_nonempty Int (fun a b => a - b)
    (by intro a b
        show a - b ≤ 0 ↔ 0 ≤ b - a
        constructor <;> intro h <;> omega)
    (by intro a b c h1 h2
        have h1' : a - b ≤ 0 := h1
        have h2' : b - c ≤ 0 := h2
        show a - c ≤ 0
        omega)
    4 [5, 3, 1, 4, 2] (by decide) (by decide)

/-- **C3 (amended)**: on an empty Record Store, `CreateLinkedListFromFile`
returns 0 nodes, `ConvertLinkedListToFile` writes 0 records, and the inner
`MergeSortLinkedListIterative` succeeds trivially on a 0-node chain — but
the `SortMerge` and `SortBubble` drivers treat `nodesCreated <= 0` as an
error and return `-1` (`none`), not trivial success as the original claim
states (see the counterexample). -/
theorem empty_store_pipeline (α : Type) (cmp : α → α → Int) (s : Nat) :
    (CreateLinkedListFromFile s ([] : List α)).2.2 = 0 ∧
    ConvertLinkedListToFile (CreateLinkedListFromFile s ([] : List α)).1
      (CreateLinkedListFromFile s ([] : List α)).2.1 = some [] ∧
    MergeSortLinkedListIterative cmp ([] : List α) 0 = some [] ∧
    SortMerge cmp ([] : List α) = none ∧
    SortBubble cmp s ([] : List α) = none := by
  refine ⟨rfl, roundTrip s [], ?_, rfl, rfl⟩
  rw [MergeSortLinkedListIterative, if_pos (by omega : (0 : Nat) ≤ 1)]

theorem empty_store_sort_error_cex :
    SortMerge (fun a b => a - b) ([] : List Int) = none ∧
    SortBubble (fun a b => a - b) 4 ([] : List Int) = none :=
  ⟨rfl, rfl⟩

/-- **C7**: in the bounded two-pointer merge, with each count limit no
larger than its chain (as in every call the sort makes), the node from
sublist A is taken exactly when the comparator on (A's record, B's record)
is `<= 0` (ties favor A) — this is what `mergeBySpec`, written from the
spec's words, does — and each side contributes exactly its first
`left1Count`/`left2Count` nodes: consumption stops at the count limit,
not at a topology-derived tail. -/
theorem mergeTwoSortedListsWithLimit_bounded (α : Type) (cmp : α → α → Int)
    (xs ys : List α) (n1 n2 : Nat) (h1 : n1 ≤ xs.length) (h2 : n2 ≤ ys.length) :
    MergeTwoSortedListsWithLimit cmp xs n1 ys n2 =
      some (mergeBySpec cmp (xs.take n1) (ys.take n2)) :=
  mergeLimit_eq_spec cmp (n1 + n2) xs n1 ys n2 (Nat.le_refl _) h1 h2

theorem mergeTwoSortedListsWithLimit_bounded_witness :
    (2 ≤ ([1, 3, 9, 9] : List Int).length) ∧ (3 ≤ ([2, 4, 7] : List Int).length) ∧
    MergeTwoSortedListsWithLimit (fun a b => a - b) ([1, 3, 9, 9] : List Int) 2
        [2, 4, 7] 3 =
      some (mergeBySpec (fun a b => a - b) (([1, 3, 9, 9] : List Int).take 2)
        (([2, 4, 7] : List Int).take 3)) :=
  ⟨by decide, by decide,
    mergeTwoSortedListsWithLimit_bounded Int (fun a b => a - b) [1, 3, 9, 9]
      [2, 4, 7] 2 3 (by decide) (by decide)⟩

/-- **C9**: the iterative merge sort is guarded exactly as claimed: a
1-node list returns unchanged with no rounds; the doubling loop started at
`sublistSize = 1`, `iteration = 0` executes at most `⌈log2 nodeCount⌉`
rounds (`Nat.clog 2 n`); entering the loop body is barred once the
64-iteration cap is reached and the post-loop check then reports failure;
and a round that completes with zero merges reports failure. -/
theorem mergeSort_rounds_and_guards (α : Type) (cmp : α → α → Int)
    (n : Nat) (c : List α) (hn : 1 ≤ n) :
    (n = 1 → MergeSortLinkedListIterative cmp c n = some c) ∧
    (mergeSortLoop cmp n c 1 0).2 ≤ Nat.clog 2 n ∧
    (∀ (s it : Nat) (d : List α), s < n → 64 ≤ it →
      (mergeSortLoop cmp n d s it).1 = none) ∧
    (∀ (s it : Nat) (d d2 : List α), s < n → it < 64 →
      mergeRound cmp s d = some (d2, 0) →
      mergeSortLoop cmp n d s it = (none, it + 1)) := by
  refine ⟨?_, ?_, ?_, ?_⟩
  · intro h1
    rw [MergeSortLinkedListIterative, if_pos (by omega)]
  · exact mergeSortLoop_iters cmp n 64 c 1 0 (by omega) (by norm_num) (Nat.zero_le _)
  · intro s it d hsn hit
    exact mergeSortLoop_cap cmp n d s it hsn hit
  · intro s it d d2 hsn hit hr
    exact mergeSortLoop_zero_merges cmp n d d2 s it hsn hit hr

theorem mergeSort_rounds_and_guards_witness :
    ((4 : Nat) = 1 → MergeSortLinkedListIterative (fun a b => a - b)
      ([3, 1, 4, 2] : List Int) 4 = some [3, 1, 4, 2]) ∧
    (mergeSortLoop (fun a b => a - b) 4 ([3, 1, 4, 2] : List Int) 1 0).2 ≤
      Nat.clog 2 4 ∧
    (mergeSortLoop (fun a b => a - b) 4 ([9, 9] : List Int) 1 64).1 = none ∧
    mergeSortLoop (fun a b => a - b) 4 ([] : List Int) 1 0 = (none, 1) := by
  have h := mergeSort_rounds_and_guards Int (fun a b => a - b) 4 [3, 1, 4, 2]
    (by omega)
  exact ⟨h.1, h.2.1, h.2.2.1 1 64 [9, 9] (by omega) (by omega),
    h.2.2.2 1 0 [] [] (by omega) (by omega) (by rw [mergeRound])⟩

theorem bubble_swap_preserves_topology_witness :
    headerAt [((32 : Int), (⟨⟨-1, 60, 4⟩, (1 : Int)⟩ : DiskNode Int)),
              ((60 : Int), (⟨⟨32, -1, 4⟩, (2 : Int)⟩ : DiskNode Int))] 32 =
      headerAt [((32 : Int), (⟨⟨-1, 60, 4⟩, (2 : Int)⟩ : DiskNode Int)),
              ((60 : Int), (⟨⟨32, -1, 4⟩, (1 : Int)⟩ : DiskNode Int))] 32 ∧
    headerAt [((32 : Int), (⟨⟨-1, 60, 4⟩, (1 : Int)⟩ : DiskNode Int)),
              ((60 : Int), (⟨⟨32, -1, 4⟩, (2 : Int)⟩ : DiskNode Int))] 60 =
      headerAt [((32 : Int), (⟨⟨-1, 60, 4⟩, (2 : Int)⟩ : DiskNode Int)),
              ((60 : Int), (⟨⟨32, -1, 4⟩, (1 : Int)⟩ : DiskNode Int))] 60 :=
  ⟨(bubble_swap_preserves_topology Int (fun a b => a - b)).1
      [((32 : Int), (⟨⟨-1, 60, 4⟩, (2 : Int)⟩ : DiskNode Int)),
       ((60 : Int), (⟨⟨32, -1, 4⟩, (1 : Int)⟩ : DiskNode Int))] 32 60
      [((32 : Int), (⟨⟨-1, 60, 4⟩, (1 : Int)⟩ : DiskNode Int)),
       ((60 : Int), (⟨⟨32, -1, 4⟩, (2 : Int)⟩ : DiskNode Int))] (by decide) 32,
   (bubble_swap_preserves_topology Int (fun a b => a - b)).2 32 1
      [((32 : Int), (⟨⟨-1, 60, 4⟩, (2 : Int)⟩ : DiskNode Int)),
       ((60 : Int), (⟨⟨32, -1, 4⟩, (1 : Int)⟩ : DiskNode Int))]
      [((32 : Int), (⟨⟨-1, 60, 4⟩, (1 : Int)⟩ : DiskNode Int)),
       ((60 : Int), (⟨⟨32, -1, 4⟩, (2 : Int)⟩ : DiskNode Int))] (by decide) 60⟩

/-- **C4 (amended)**: a read failure at a probe of the binary search loop
aborts the whole `SearchBinary` immediately with the error result `-1`
(position `-1`, no comparison performed on the failing probe), and
`SearchBinaryRange` passes that `-1` through, distinct from the not-found
result `0`.  But a read failure during the left or right expansion of
`SearchBinaryRange` only stops that expansion (`continueSearchLeft`/
`continueSearchRight` are cleared, not `errorOccurred`): once the inner
search has found a match the range search returns a success count `>= 1`,
never `-1` — contrary to the original claim (see the counterexample). -/
theorem search_io_failure (α : Type) (cmp : α → α → Int) (key : α)
    (store : List (Option α)) :
    (∀ (fuel : Nat) (lb rb : Int), lb ≤ rb →
      readStore store (lb + (rb - lb) / 2) = none →
      searchLoop cmp key store (fuel + 1) lb rb = (-1, -1, 0)) ∧
    ((SearchBinary cmp key store).1 = -1 →
      SearchBinaryRange cmp key store =
        ((SearchBinary cmp key store).1, -1, -1)) ∧
    (∀ fm c, SearchBinary cmp key store = (1, fm, c) →
      1 ≤ (SearchBinaryRange cmp key store).1) := by
  refine ⟨?_, ?_, ?_⟩
  · intro fuel lb rb hlr hread
    simp only [searchLoop]
    rw [if_pos hlr]
    simp only [hread]
  · intro h
    rw [SearchBinaryRange]
    dsimp only
    rw [if_neg (by rw [h]; decide)]
  · intro fm c h
    have h1 : expandLeft cmp key store store.length (fm - 1) fm ≤ fm :=
      expandLeft_le cmp key store store.length (fm - 1) fm (by omega)
    have h2 : fm ≤ expandRight cmp key store store.length (fm + 1) fm :=
      expandRight_ge cmp key store store.length (fm + 1) fm (by omega)
    rw [SearchBinaryRange, h]
    dsimp only
    rw [if_pos rfl]
    dsimp only
    omega

theorem search_expansion_failure_cex :
    SearchBinaryRange (fun a b => a - b) 5
        ([none, some 5, some 5] : List (Option Int)) = (2, 1, 2) ∧
    readStore ([none, some 5, some 5] : List (Option Int)) 0 = none ∧
    ¬ SearchBinaryRange (fun a b => a - b) 5
        ([none, some 5, some 5] : List (Option Int)) = (-1, -1, -1) := by
  decide

theorem search_io_failure_witness :
    searchLoop (fun a b => a - b) (5 : Int)
        ([some 1, none, some 9] : List (Option Int)) 1 0 2 = (-1, -1, 0) ∧
    SearchBinaryRange (fun a b => a - b) (5 : Int)
        ([some 1, none, some 9] : List (Option Int)) = (-1, -1, -1) ∧
    1 ≤ (SearchBinaryRange (fun a b => a - b) (5 : Int)
        ([none, some 5, some 5] : List (Option Int))).1 := by
  have h1 := search_io_failure Int (fun a b => a - b) 5 [some 1, none, some 9]
  have h2 := search_io_failure Int (fun a b => a - b) 5 [none, some 5, some 5]
  refine ⟨h1.1 0 0 2 (by decide) (by decide), ?_, h2.2.2 1 1 (by decide)⟩
  exact (h1.2.1 (by decide)).trans (by decide)

/-- **C6**: on a store sorted consistently with the comparator:
a key present in the store is found (`1`) at some position comparing
equal to it; a key strictly outside the store's value range is reported
not found (`0`); and the empty store returns not found with zero
comparisons performed. -/
theorem searchBinary_point (α : Type) (cmp : α → α → Int)
    (hAs : CmpAntisym cmp) (htr : CmpTrans cmp) (key : α) (l : List α)
    (hs : l.Pairwise (cmpLe cmp)) :
    (key ∈ l → ∃ p c, SearchBinary cmp key (l.map some) = (1, p, c) ∧
      0 ≤ p ∧ ∃ hp : p.toNat < l.length,
        cmp key (l.get ⟨p.toNat, hp⟩) = 0) ∧
    ((∀ x ∈ l, cmp key x < 0) ∨ (∀ x ∈ l, 0 < cmp key x) →
      ∃ c, SearchBinary cmp key (l.map some) = (0, -1, c)) ∧
    SearchBinary cmp key ([] : List (Option α)) = (0, -1, 0) := by
  refine ⟨?_, ?_, rfl⟩
  · intro hmem
    obtain ⟨⟨j, hj⟩, hget⟩ := List.mem_iff_get.mp hmem
    have hj0 : cmp key (l.getD j key) = 0 := by
      rw [List.getD_eq_getElem l key hj]
      rw [List.get_eq_getElem] at hget
      rw [hget]
      exact cmp_self_eq_zero cmp hAs key
    have hne : 0 < l.length := lt_of_le_of_lt (Nat.zero_le j) hj
    simp only [SearchBinary, List.length_map]
    rw [if_neg (by omega)]
    obtain ⟨p, c, hr, hp1, hp2, hp3⟩ :=
      searchLoop_found cmp hAs htr key l hs l.length 0 ((l.length : Int) - 1)
        j (by omega) (by omega) (by omega) (by omega) (by omega) hj0
    have hpl : p.toNat < l.length := by omega
    refine ⟨p, c, hr, by omega, hpl, ?_⟩
    have h := hp3
    rwa [List.getD_eq_getElem l key hpl] at h
  · intro hout
    have hnm : ∀ m : Nat, m < l.length → cmp key (l.getD m key) ≠ 0 := by
      intro m hm
      have hmem : l.getD m key ∈ l := by
        rw [List.getD_eq_getElem l key hm]
        exact List.getElem_mem hm
      rcases hout with h | h
      · have := h _ hmem
        omega
      · have := h _ hmem
        omega
    rcases Nat.eq_zero_or_pos l.length with h0 | h0
    · have hl : l = [] := List.length_eq_zero.mp h0
      subst hl
      exact ⟨0, rfl⟩
    · simp only [SearchBinary, List.length_map]
      rw [if_neg (by omega)]
      exact searchLoop_notFound cmp key l hnm l.length 0 ((l.length : Int) - 1)
        (by omega) (by omega) (by omega)

theorem searchBinary_point_witness :
    ((2 : Int) ∈ ([1, 2, 3] : List Int) →
      ∃ p c, SearchBinary (fun a b => a - b) (2 : Int)
          (([1, 2, 3] : List Int).map some) = (1, p, c) ∧ 0 ≤ p ∧
        ∃ hp : p.toNat < ([1, 2, 3] : List Int).length,
          (fun a b => a - b) (2 : Int)
            (([1, 2, 3] : List Int).get ⟨p.toNat, hp⟩) = 0) ∧
    (∃ c, SearchBinary (fun a b => a - b) (9 : Int)
        (([1, 2, 3] : List Int).map some) = (0, -1, c)) ∧
    SearchBinary (fun a b => a - b) (2 : Int) ([] : List (Option Int)) =
      (0, -1, 0) := by
  have hAs : CmpAntisym (fun a b : Int => a - b) := by
    intro a b
    show a - b ≤ 0 ↔ 0 ≤ b - a
    constructor <;> intro h <;> omega
  have htr : CmpTrans (fun a b : Int => a - b) := by
    intro a b c h1 h2
    have h1' : a - b ≤ 0 := h1
    have h2' : b - c ≤ 0 := h2
    show a - c ≤ 0
    omega
  have hsorted : List.Pairwise (cmpLe (fun a b => a - b)) ([1, 2, 3] : List Int) := by
    norm_num [cmpLe, List.pairwise_cons]
  have h1 := searchBinary_point Int (fun a b => a - b) hAs htr 2 [1, 2, 3] hsorted
  have h2 := searchBinary_point Int (fun a b => a - b) hAs htr 9 [1, 2, 3] hsorted
  exact ⟨h1.1, h2.2.1 (Or.inr (by decide)), h1.2.2⟩

/-- **C5**: equal-range correctness of `SearchBinaryRange` on a sorted,
failure-free store holding at least one position matching the key: it
returns `(k, start, end)` where every position of `[start, end]` compares
equal to the key, the flanking positions `start - 1` and `end + 1` (when
they exist) do not, and the returned count `k = end - start + 1` equals
the number of matching positions of the store. -/
theorem searchBinaryRange_equal_range (α : Type) (cmp : α → α → Int)
    (hAs : CmpAntisym cmp) (htr : CmpTrans cmp) (key : α) (l : List α)
    (hs : l.Pairwise (cmpLe cmp)) (j : Nat) (hj : j < l.length)
    (hjm : cmp key (l.getD j key) = 0) :
    ∃ s e : Int, SearchBinaryRange cmp key (l.map some) = (e - s + 1, s, e) ∧
      0 ≤ s ∧ s ≤ e ∧ e < (l.length : Int) ∧
      e - s + 1 =
        (((Finset.range l.length).filter
          (fun i => cmp key (l.getD i key) = 0)).card : Int) ∧
      (∀ m : Nat, s ≤ (m : Int) → (m : Int) ≤ e →
        cmp key (l.getD m key) = 0) ∧
      (1 ≤ s → cmp key (l.getD (s - 1).toNat key) ≠ 0) ∧
      (e + 1 < (l.length : Int) → cmp key (l.getD (e + 1).toNat key) ≠ 0) := by
  have hn : 0 < l.length := lt_of_le_of_lt (Nat.zero_le j) hj
  obtain ⟨p, c, hr, hp1, hp2, hp3⟩ :=
    searchLoop_found cmp hAs htr key l hs l.length 0 ((l.length : Int) - 1)
      j (by omega) (by omega) (by omega) (by omega) (by omega) hjm
  have hSB : SearchBinary cmp key (l.map some) = (1, p, c) := by
    simp only [SearchBinary, List.length_map]
    rw [if_neg (by omega)]
    exact hr
  obtain ⟨s, hs1, hs2, hs3, hs4, hs5⟩ :=
    expandLeft_spec cmp key l l.length (p - 1) p (by omega) (by omega)
      (by omega) hp3 (by omega)
  obtain ⟨e, he1, he2, he3, he4, he5⟩ :=
    expandRight_spec cmp key l l.length (p + 1) p rfl (by omega)
      (by omega) hp3 (by omega)
  have hrange : SearchBinaryRange cmp key (l.map some) = (e - s + 1, s, e) := by
    rw [SearchBinaryRange, hSB]
    dsimp only
    rw [if_pos rfl]
    simp only [List.length_map]
    rw [hs1, he1]
  have hall : ∀ m : Nat, s ≤ (m : Int) → (m : Int) ≤ e →
      cmp key (l.getD m key) = 0 := by
    intro mm hm1 hm2
    by_cases hmp : (mm : Int) ≤ p
    · exact hs4 mm hm1 hmp
    · exact he4 mm (by omega) hm2
  have hset : (Finset.range l.length).filter
      (fun i => cmp key (l.getD i key) = 0) = Finset.Icc s.toNat e.toNat := by
    ext i
    simp only [Finset.mem_filter, Finset.mem_range, Finset.mem_Icc]
    constructor
    · rintro ⟨hi, hmatch⟩
      constructor
      · by_contra hco
        push_neg at hco
        rcases hs5 with h | h
        · omega
        · exact h (cmp_zero_between cmp hAs htr key l hs i (s - 1).toNat
            p.toNat (by omega) (by omega) (by omega) hmatch hp3)
      · by_contra hco
        push_neg at hco
        rcases he5 with h | h
        · omega
        · exact h (cmp_zero_between cmp hAs htr key l hs p.toNat
            (e + 1).toNat i (by omega) (by omega) hi hp3 hmatch)
    · rintro ⟨h1, h2⟩
      exact ⟨by omega, hall i (by omega) (by omega)⟩
  have hcard : ((Finset.range l.length).filter
      (fun i => cmp key (l.getD i key) = 0)).card = e.toNat + 1 - s.toNat := by
    rw [hset, Nat.card_Icc]
  refine ⟨s, e, hrange, hs2, le_trans hs3 he2, he3, ?_, hall, ?_, ?_⟩
  · rw [hcard]
    omega
  · intro hs1'
    rcases hs5 with h | h
    · omega
    · exact h
  · intro he1'
    rcases he5 with h | h
    · omega
    · exact h

theorem searchBinaryRange_equal_range_witness :
    ∃ s e : Int, SearchBinaryRange (fun a b => a - b) (5 : Int)
        (([1, 5, 5, 5, 9] : List Int).map some) = (e - s + 1, s, e) ∧
      0 ≤ s ∧ s ≤ e ∧ e < (([1, 5, 5, 5, 9] : List Int).length : Int) ∧
      e - s + 1 =
        (((Finset.range ([1, 5, 5, 5, 9] : List Int).length).filter
          (fun i => (fun a b => a - b) (5 : Int)
            (([1, 5, 5, 5, 9] : List Int).getD i 5) = 0)).card : Int) ∧
      (∀ m : Nat, s ≤ (m : Int) → (m : Int) ≤ e →
        (fun a b => a - b) (5 : Int)
          (([1, 5, 5, 5, 9] : List Int).getD m 5) = 0) ∧
      (1 ≤ s → (fun a b => a - b) (5 : Int)
        (([1, 5, 5, 5, 9] : List Int).getD (s - 1).toNat 5) ≠ 0) ∧
      (e + 1 < (([1, 5, 5, 5, 9] : List Int).length : Int) →
        (fun a b => a - b) (5 : Int)
          (([1, 5, 5, 5, 9] : List Int).getD (e + 1).toNat 5) ≠ 0) := by
  have hAs : CmpAntisym (fun a b : Int => a - b) := by
    intro a b
    show a - b ≤ 0 ↔ 0 ≤ b - a
    constructor <;> intro h <;> omega
  have htr : CmpTrans (fun a b : Int => a - b) := by
    intro a b c h1 h2
    have h1' : a - b ≤ 0 := h1
    have h2' : b - c ≤ 0 := h2
    show a - c ≤ 0
    omega
  have hsorted : List.Pairwise (cmpLe (fun a b => a - b))
      ([1, 5, 5, 5, 9] : List Int) := by
    norm_num [cmpLe, List.pairwise_cons]
  exact searchBinaryRange_equal_range Int (fun a b => a - b) hAs htr 5
    [1, 5, 5, 5, 9] hsorted 1 (by decide) (by decide)

end Dbms
